import Mathlib

/-!
Shallow embedding of `src/generate_blogs.py` (a Markdown-to-HTML blog page
generator) and verification of the frozen claims about it.

Strings are modelled as `List Char`.  Python regex character classes are
modelled by `pyIsSpace` (`\s`, ASCII part), `isWordChar` (`\w`) and
`Char.isDigit` (`\d`); `str.lower` is modelled by the string-level
`pyLower`, which performs ASCII case folding together with the one-to-many
lowercase expansion of U+0130, the non-ASCII code point the theorems
exercise.
Regex-driven transforms (`re.sub`, `re.search`, `re.split`) are embedded as
explicit left-to-right scanners that mirror the leftmost-match and
backtracking semantics of the concrete patterns used by the source.  The
scanners take a fuel argument; every recursive step consumes at least one
input character, so fuel `length + 1` always suffices, which the wrappers
supply.
-/

/-- Turns a string literal into the `List Char` representation used
throughout this development. -/
def str (s : String) : List Char := s.data

/-- Model of the regex class `\s` (Python whitespace, ASCII part):
space, tab, newline, carriage return, vertical tab, form feed. -/
def pyIsSpace (c : Char) : Bool :=
  c == ' ' || c == '\t' || c == '\n' || c == '\r' || c == '\x0b' || c == '\x0c'

/-- Model of the regex class `\w`: ASCII letters, digits and underscore,
together with U+0130 (LATIN CAPITAL LETTER I WITH DOT ABOVE), the one
non-ASCII letter this development evaluates the class on.  Python's `\w`
matches every Unicode alphanumeric but no combining mark, so U+0130 is a
word character while U+0307 (COMBINING DOT ABOVE) is not; the model agrees
with Python on every code point the theorems evaluate it on and treats the
remaining non-ASCII code points as non-word. -/
def isWordChar (c : Char) : Bool :=
  c.isAlphanum || c == '_' || c == '\u0130'

/-- Single-character ASCII case folding: the action of Python lowercasing
on one ASCII character.  It models the case-insensitive (`re.I`) matching
of the ASCII tag alternatives on line 37, and is the ASCII case of
`pyLowerChar` below. -/
def pyToLower (c : Char) : Char :=
  if c.isUpper then Char.ofNat (c.toNat + 32) else c

/-- One character of Python `html.escape` (with quotes): ampersand, angle
brackets, double quote and single quote become entities. -/
def htmlEscapeChar (c : Char) : List Char :=
  if c == '&' then str "&amp;"
  else if c == '<' then str "&lt;"
  else if c == '>' then str "&gt;"
  else if c == '"' then str "&quot;"
  else if c == '\x27' then str "&#x27;"
  else [c]

/-- Model of Python `html.escape(s)` (quote=True). -/
def htmlEscape : List Char → List Char
  | [] => []
  | c :: t => htmlEscapeChar c ++ htmlEscape t

/-- Substring test: model of Python `pat in s` (for nonempty `pat`). -/
def occursSub (pat : List Char) : List Char → Bool
  | [] => pat.isEmpty
  | c :: t => pat.isPrefixOf (c :: t) || occursSub pat t

/-- Splits `s` at the first occurrence of `pat`, returning the part before
the occurrence and the part after it; `none` when `pat` does not occur.
This is the search step shared by the non-greedy regex fragments of the
source (`(.*?)` up to a literal). -/
def splitAtFirst (pat : List Char) : List Char → Option (List Char × List Char)
  | [] => if pat.isEmpty then some ([], []) else none
  | c :: t =>
    if pat.isPrefixOf (c :: t) then some ([], (c :: t).drop pat.length)
    else (splitAtFirst pat t).map (fun pr => (c :: pr.1, pr.2))

/-- Fueled scanner for Python `str.replace(old, new)`: replaces every
occurrence, left to right, without rescanning the replacement text.
`old` is nonempty at every use site. -/
def pyReplaceF (old new : List Char) : Nat → List Char → List Char
  | 0, s => s
  | _ + 1, [] => []
  | f + 1, c :: t =>
    if old.isPrefixOf (c :: t) then new ++ pyReplaceF old new f ((c :: t).drop old.length)
    else c :: pyReplaceF old new f t

/-- Model of Python `s.replace(old, new)`. -/
def pyReplace (s old new : List Char) : List Char :=
  pyReplaceF old new (s.length + 1) s

/-! ### Slug Generator (source: `slugify`, lines 14-16)

`re.sub(r"[^\w\-]+", "-", name).strip("-").lower()`, with fallback
`"post"` when the result is empty. -/

/-- A character kept verbatim by the slug substitution: word characters and
hyphens (the complement of the class `[^\w\-]`). -/
def slugKeep (c : Char) : Bool := isWordChar c || c == '-'

/-- The substitution `re.sub(r"[^\w\-]+", "-", name)`: every maximal run of
non-kept characters collapses to a single hyphen.  The boolean flag records
whether the scanner is inside such a run. -/
def subBadGo : Bool → List Char → List Char
  | _, [] => []
  | inBad, c :: t =>
    if slugKeep c then c :: subBadGo false t
    else if inBad then subBadGo true t
    else '-' :: subBadGo true t

/-- Model of Python `s.strip("-")`: removes leading and trailing hyphens. -/
def stripDash (l : List Char) : List Char :=
  ((l.dropWhile (fun c => c == '-')).reverse.dropWhile (fun c => c == '-')).reverse

/-- Model of Python `s.strip()`: removes leading and trailing whitespace. -/
def stripWS (l : List Char) : List Char :=
  ((l.dropWhile pyIsSpace).reverse.dropWhile pyIsSpace).reverse

/-- Full-case lowercase mapping of one character, as performed by Python
`str.lower`: ASCII letters fold to lowercase, and U+0130 (LATIN CAPITAL
LETTER I WITH DOT ABOVE) expands to the two code points `i` followed by
U+0307 (COMBINING DOT ABOVE) — the one-to-many mapping of the Unicode
lowercase tables that makes `slugify` non-idempotent.  Other non-ASCII
code points are kept unchanged; the development only evaluates the mapping
on ASCII text and on the code points named here, where it agrees with
Python. -/
def pyLowerChar (c : Char) : List Char :=
  if c == '\u0130' then ['i', '\u0307']
  else if c.isUpper then [Char.ofNat (c.toNat + 32)] else [c]

/-- Model of Python `s.lower()`: concatenation of the per-character
full-case lowercase mappings. -/
def pyLower : List Char → List Char
  | [] => []
  | c :: t => pyLowerChar c ++ pyLower t

/-- Source `slugify` (lines 14-16):
`s = re.sub(r"[^\w\-]+", "-", name).strip("-").lower(); return s or "post"`. -/
def slugify (name : List Char) : List Char :=
  let s := pyLower (stripDash (subBadGo false name))
  if s.isEmpty then str "post" else s

/-! ### Markdown Compiler (source: `compile_markdown`, lines 18-42) -/

/-- Line-ending normalization (line 19):
`md.replace("\r\n", "\n").replace("\r", "\n")`. -/
def normalizeNL (md : List Char) : List Char :=
  (pyReplace md (str "\r\n") (str "\n")).map (fun c => if c == '\r' then '\n' else c)

/-- Source `repl_code` (lines 20-25): wraps escaped fenced content in a
pre/code container, with a `language-<tag>` class when a tag is present.
The source applies `.strip()` to the tag, which is the identity here since
the tag is captured by `(\w*)` and contains no whitespace. -/
def replCode (lang code : List Char) : List Char :=
  if lang.isEmpty then
    str "<pre><code>" ++ htmlEscape code ++ str "</code></pre>"
  else
    str "<pre><code class=\x27language-" ++ htmlEscape lang ++ str "\x27>" ++
      htmlEscape code ++ str "</code></pre>"

/-- Fueled scanner for line 26:
`re.sub(r"```(\w*)\n(.*?)\n```", repl_code, s, flags=re.DOTALL)`.
At each position: three backticks, then a maximal run of word characters
(the tag), then a mandatory newline, then non-greedily the content up to
the first closing fence; a failed attempt advances one character. -/
def codeFenceF : Nat → List Char → List Char
  | 0, s => s
  | _ + 1, [] => []
  | f + 1, c :: t =>
    if (str "```").isPrefixOf (c :: t) then
      let r := (c :: t).drop 3
      let lang := r.takeWhile isWordChar
      match r.dropWhile isWordChar with
      | '\n' :: body =>
        match splitAtFirst (str "\n```") body with
        | some (code, rest) => replCode lang code ++ codeFenceF f rest
        | none => c :: codeFenceF f t
      | _ => c :: codeFenceF f t
    else c :: codeFenceF f t

/-- The anchored match attempt of the heading substitutions (lines 27-29),
pattern `^HS\s*(.+)$` with `re.MULTILINE`, tried at a line start.  Returns
the captured group together with the text after the match.  The `\s*` is
greedy and may cross newlines; when the remainder after the hashes is all
whitespace, backtracking hands the last whitespace character that is not a
newline to `(.+)` (the multiline `$` then matches before the following
newline, if any), so the newlines after that character survive the match. -/
def headMatch (hs s : List Char) : Option (List Char × List Char) :=
  if hs.isPrefixOf s then
    let r := s.drop hs.length
    let R := r.dropWhile pyIsSpace
    if R.isEmpty then
      let W := r.takeWhile pyIsSpace
      let k := (W.reverse.takeWhile (fun c => c == '\n')).length
      match W.reverse.drop k with
      | wc :: _ => some ([wc], W.drop (W.length - k))
      | [] => none
    else
      some (R.takeWhile (fun c => c != '\n'), R.dropWhile (fun c => c != '\n'))
  else none

/-- Fueled scanner for one heading substitution pass (lines 27-29), e.g.
`re.sub(r"^###\s*(.+)$", r"<h4>\1</h4>", s, flags=re.MULTILINE)`.
Invoked at a line start; a line where the anchored attempt fails is copied
verbatim and scanning resumes after its newline. -/
def headSubF (hs openT closeT : List Char) : Nat → List Char → List Char
  | 0, s => s
  | f + 1, s =>
    if s.isEmpty then []
    else
      match headMatch hs s with
      | some (g, rest) =>
        openT ++ g ++ closeT ++
          (match rest with
           | [] => []
           | nl :: t2 => nl :: headSubF hs openT closeT f t2)
      | none =>
        let L := s.takeWhile (fun c => c != '\n')
        match s.dropWhile (fun c => c != '\n') with
        | [] => L
        | nl :: t2 => L ++ nl :: headSubF hs openT closeT f t2

/-- The three heading passes of lines 27-29 in source order:
`###` to level 4, then `##` to level 3, then `#` to level 2. -/
def headingPass (s : List Char) : List Char :=
  let s1 := headSubF (str "###") (str "<h4>") (str "</h4>") (s.length + 1) s
  let s2 := headSubF (str "##") (str "<h3>") (str "</h3>") (s1.length + 1) s1
  headSubF (str "#") (str "<h2>") (str "</h2>") (s2.length + 1) s2

/-- A character of the regex class `[^\s<]` in the autolink pattern. -/
def urlChar (c : Char) : Bool := !pyIsSpace c && c != '<'

/-- The hyperlink replacement `r"<a href='\1'>\1</a>"` of line 30. -/
def mkLink (u : List Char) : List Char :=
  str "<a href=\x27" ++ u ++ str "\x27>" ++ u ++ str "</a>"

/-- Fueled scanner for line 30:
`re.sub(r"(https?://[^\s<]+)", r"<a href='\1'>\1</a>", s)`. -/
def autoLinkF : Nat → List Char → List Char
  | 0, s => s
  | _ + 1, [] => []
  | f + 1, c :: t =>
    if (str "https://").isPrefixOf (c :: t) then
      let rest := (c :: t).drop 8
      let u := rest.takeWhile urlChar
      if u.isEmpty then c :: autoLinkF f t
      else mkLink (str "https://" ++ u) ++ autoLinkF f (rest.drop u.length)
    else if (str "http://").isPrefixOf (c :: t) then
      let rest := (c :: t).drop 7
      let u := rest.takeWhile urlChar
      if u.isEmpty then c :: autoLinkF f t
      else mkLink (str "http://" ++ u) ++ autoLinkF f (rest.drop u.length)
    else c :: autoLinkF f t

/-- Finds the first blank-line separator of line 31
(`re.split(r"\n\s*\n", s)`): a newline, greedy whitespace, then a final
newline.  Greediness makes the separator extend to the last newline of the
whitespace run that follows the first newline.  Returns the text before
the separator and the remainder after it. -/
def findSep : List Char → Option (List Char × List Char)
  | [] => none
  | c :: t =>
    if c == '\n' then
      let R := t.takeWhile pyIsSpace
      if R.any (fun x => x == '\n') then
        let trailLen := (R.reverse.takeWhile (fun x => x != '\n')).length
        some ([], R.drop (R.length - trailLen) ++ t.drop R.length)
      else (findSep t).map (fun pr => (c :: pr.1, pr.2))
    else (findSep t).map (fun pr => (c :: pr.1, pr.2))

/-- Fueled model of `re.split(r"\n\s*\n", s)` (line 31). -/
def blockSplitF : Nat → List Char → List (List Char)
  | 0, s => [s]
  | f + 1, s =>
    match findSep s with
    | none => [s]
    | some (before, remainder) => before :: blockSplitF f remainder

/-- Case-insensitive literal prefix test (the alternatives of the block-tag
pattern of line 37, compiled with `re.I`); the pattern is lowercase. -/
def ciPre : List Char → List Char → Bool
  | [], _ => true
  | _ :: _, [] => false
  | p :: ps, c :: cs => pyToLower c == p && ciPre ps cs

/-- Model of line 37,
`re.match(r"^<(h\d|pre|ul|ol|blockquote|p|div)", p, flags=re.I)`:
a `<` followed by one of the listed tag alternatives. -/
def isBlockStart (q : List Char) : Bool :=
  match q with
  | '<' :: r =>
    (match r with
     | a :: b :: _ => pyToLower a == 'h' && b.isDigit
     | _ => false) ||
    ciPre (str "pre") r || ciPre (str "ul") r || ciPre (str "ol") r ||
    ciPre (str "blockquote") r || ciPre (str "p") r || ciPre (str "div") r
  | _ => false

/-- Model of `p.replace("\n", "<br>")` (line 40). -/
def brSub : List Char → List Char
  | [] => []
  | c :: t => (if c == '\n' then str "<br>" else [c]) ++ brSub t

/-- The per-block processing of lines 33-41: strip the block, drop it when
empty, keep it verbatim when it starts with a recognized block-level tag,
otherwise replace inner newlines by `<br>` and wrap it in a paragraph. -/
def procBlock (p : List Char) : Option (List Char) :=
  let q := stripWS p
  if q.isEmpty then none
  else if isBlockStart q then some q
  else some (str "<p>" ++ brSub q ++ str "</p>")

/-- Source `compile_markdown` (lines 18-42): normalization, fenced code
blocks, the three heading passes, autolinking, blank-line blocking, and the
final join with blank lines. -/
def compile_markdown (md : List Char) : List Char :=
  let s0 := normalizeNL md
  let s1 := codeFenceF (s0.length + 1) s0
  let s2 := headingPass s1
  let s3 := autoLinkF (s2.length + 1) s2
  let parts := blockSplitF (s3.length + 1) s3
  List.intercalate (str "\n\n") (parts.filterMap procBlock)

/-! ### Title Extractor (source: `extract_title`, lines 44-51) -/

/-- The anchored match attempt of `re.search(r"^HS\s+(.+)$", md, re.M)` at a
line start, returning the captured group.  Unlike `headMatch` the `\s+`
must consume at least one whitespace character, so the backtracking case
additionally needs a second whitespace character to feed `(.+)`. -/
def headMatchPlus (hs s : List Char) : Option (List Char) :=
  if hs.isPrefixOf s then
    let r := s.drop hs.length
    let W := r.takeWhile pyIsSpace
    if W.isEmpty then none
    else
      let R := r.dropWhile pyIsSpace
      if R.isEmpty then
        let k := (W.reverse.takeWhile (fun c => c == '\n')).length
        match W.reverse.drop k with
        | _ :: [] => none
        | wc :: _ :: _ => some [wc]
        | [] => none
      else some (R.takeWhile (fun c => c != '\n'))
  else none

/-- Fueled model of `re.search(r"^HS\s+(.+)$", md, flags=re.MULTILINE)`:
tries the anchored attempt at each line start, left to right, and returns
the first captured group. -/
def searchHeadF (hs : List Char) : Nat → List Char → Option (List Char)
  | 0, _ => none
  | f + 1, s =>
    if s.isEmpty then none
    else
      match headMatchPlus hs s with
      | some g => some g
      | none =>
        match s.dropWhile (fun c => c != '\n') with
        | [] => none
        | _ :: t2 => searchHeadF hs f t2

/-- Source `extract_title` (lines 44-51): first `^#\s+(.+)$` match anywhere,
else first `^##\s+(.+)$` match, else the fallback; matches are stripped. -/
def extract_title (md fb : List Char) : List Char :=
  match searchHeadF (str "#") (md.length + 1) md with
  | some g => stripWS g
  | none =>
    match searchHeadF (str "##") (md.length + 1) md with
    | some g => stripWS g
    | none => fb

/-! ### Template Merger (source: `main`, lines 93-110) -/

/-- The literal feed marker `###BLOGS###` (line 94). -/
def blogsMarker : List Char := str "###BLOGS###"

/-- The literal contents marker `###BLOG-CONTENTS###` (line 105). -/
def contentsMarker : List Char := str "###BLOG-CONTENTS###"

/-- The paired comment start marker (line 98). -/
def startMarker : List Char := str "<!-- BLOGS-START -->"

/-- The paired comment end marker (line 98). -/
def endMarker : List Char := str "<!-- BLOGS-END -->"

/-- Fueled scanner for line 99:
`re.sub(r"<!-- BLOGS-START -->[\s\S]*?<!-- BLOGS-END -->", repl, tpl, count=1)`:
the first start marker that has an end marker after it is replaced together
with everything up to and including that first end marker; the remainder of
the document is emitted verbatim (`count=1`). -/
def commentSubF (posts : List Char) : Nat → List Char → List Char
  | 0, s => s
  | _ + 1, [] => []
  | f + 1, c :: t =>
    if startMarker.isPrefixOf (c :: t) then
      match splitAtFirst endMarker ((c :: t).drop startMarker.length) with
      | some (_, rest) => startMarker ++ '\n' :: (posts ++ '\n' :: (endMarker ++ rest))
      | none => c :: commentSubF posts f t
    else c :: commentSubF posts f t

/-- Feed insertion (lines 93-103): literal marker replacement, else the
paired comment markers, else insertion before `</main>`, else appending. -/
def mergeFeed (tpl posts : List Char) : List Char :=
  if occursSub blogsMarker tpl then pyReplace tpl blogsMarker posts
  else if occursSub startMarker tpl && occursSub endMarker tpl then
    commentSubF posts (tpl.length + 1) tpl
  else if occursSub (str "</main>") tpl then
    pyReplace tpl (str "</main>") (posts ++ str "\n</main>")
  else tpl ++ str "\n\n" ++ posts

/-- Fueled scanner for line 108:
`re.sub(r"(<nav\b[^>]*>)([\s\S]*?)(</nav>)", g1 + "\n" + contents + "\n" + g3, out, count=1)`:
the first `<nav` with a word boundary, a `>`-free attribute span, a closing
`>`, and a later `</nav>` is rewritten; the replacement keeps the opening
tag and the closing tag but drops the old interior (`group(2)` is unused by
the source lambda). -/
def navSubF (contents : List Char) : Nat → List Char → List Char
  | 0, s => s
  | _ + 1, [] => []
  | f + 1, c :: t =>
    if (str "<nav").isPrefixOf (c :: t) then
      match (c :: t).drop 4 with
      | [] => c :: navSubF contents f t
      | c2 :: r2 =>
        if isWordChar c2 then c :: navSubF contents f t
        else
          let attrs := (c2 :: r2).takeWhile (fun x => x != '>')
          match (c2 :: r2).dropWhile (fun x => x != '>') with
          | [] => c :: navSubF contents f t
          | _ :: after =>
            match splitAtFirst (str "</nav>") after with
            | some (_, post) =>
              str "<nav" ++ attrs ++ '>' :: '\n' :: (contents ++ '\n' :: (str "</nav>" ++ post))
            | none => c :: navSubF contents f t
    else c :: navSubF contents f t

/-- Contents insertion (lines 105-110): literal marker replacement, else
insertion into the first navigation element, else prepending. -/
def mergeContents (doc contents : List Char) : List Char :=
  if occursSub contentsMarker doc then pyReplace doc contentsMarker contents
  else if occursSub (str "<nav") doc && occursSub (str "</nav>") doc then
    navSubF contents (doc.length + 1) doc
  else contents ++ str "\n\n" ++ doc

/-- The whole merger: feed insertion followed by contents insertion on its
result (lines 93-110). -/
def mergeAll (tpl posts contents : List Char) : List Char :=
  mergeContents (mergeFeed tpl posts) contents

/-! ### Post Collector and process model (source: `main`, lines 53-117)

The filesystem effects of `main` (directory and template existence checks,
`sys.exit`, the single output write) are embedded as explicit state: the
input captures what the relevant paths contain, and the result records the
diagnostic, the exit code, and the written output, if any. -/

/-- One eligible Markdown file, by stem (filename without extension) and
decoded text, in the modification-time order established by line 69. -/
structure FileEntry where
  stem : List Char
  text : List Char

/-- The per-post fragment of line 79. -/
def postFragment (fe : FileEntry) : List Char :=
  let anchor := slugify fe.stem
  str "<a id=\x27" ++ anchor ++ str "\x27></a>\n<article class=\x27post\x27 id=\x27" ++
    anchor ++ str "\x27>\n" ++ compile_markdown fe.text ++ str "\n</article>"

/-- The per-post contents entry of line 81. -/
def contentsEntry (fe : FileEntry) : List Char :=
  let anchor := slugify fe.stem
  str "<a href=\x27#" ++ anchor ++ str "\x27>- " ++
    htmlEscape (extract_title fe.text fe.stem) ++ str "</a>"

/-- The joined feed of line 84, with the bilingual placeholder for an empty
post list. -/
def postsBlockOf (files : List FileEntry) : List Char :=
  if files.isEmpty then
    str "<p class=\"translatable\" data-en=\"No posts yet.\" data-de=\"Noch keine Beiträge.\">No posts yet.</p>"
  else List.intercalate (str "\n<hr>\n") (files.map postFragment)

/-- The joined contents list of line 85. -/
def contentsBlockOf (files : List FileEntry) : List Char :=
  List.intercalate (str "<br>") (files.map contentsEntry)

/-- The observable inputs of a run: whether the blogs directory and the
template file exist, the eligible files (already mtime-sorted), and the
template text. -/
structure RunInput where
  blogsDirExists : Bool
  templateExists : Bool
  files : List FileEntry
  template : List Char

/-- The observable outcome of a run: a fatal diagnostic with an exit code,
or a successful run with the single written output document. -/
inductive RunResult where
  | fatal (msg : List Char) (code : Nat)
  | ok (written : List Char)

/-- The output document written by the run, if any. -/
def RunResult.writtenOutput : RunResult → Option (List Char)
  | .fatal _ _ => none
  | .ok w => some w

/-- The process exit code of the run. -/
def RunResult.exitCode : RunResult → Nat
  | .fatal _ c => c
  | .ok _ => 0

/-- The diagnostic printed to standard error, if any. -/
def RunResult.diagnostic : RunResult → Option (List Char)
  | .fatal m _ => some m
  | .ok _ => none

/-- Source `main` (lines 53-117): abort with exit code 1 when the blogs
directory is missing (lines 55-57); compile the posts (lines 71-85); abort
with exit code 1 when the template is missing (lines 87-89, before the
write of line 113); otherwise merge and write the output. -/
def mainModel (inp : RunInput) : RunResult :=
  if !inp.blogsDirExists then
    .fatal (str "ERROR: blogs directory not found") 1
  else
    let posts := postsBlockOf inp.files
    let contents := contentsBlockOf inp.files
    if !inp.templateExists then
      .fatal (str "ERROR: Template file not found") 1
    else
      .ok (mergeAll inp.template posts contents)

/-! ### Statement-side notions used by the claims

These definitions do not model new source code; they give the claims'
vocabulary (lines of a text, per-line heading patterns, occurrence-free
template segments) a precise decidable form for the theorems below. -/

/-- The lines of a text, split at every newline (an empty text has one
empty line, a trailing newline yields a trailing empty line). -/
def linesOf : List Char → List (List Char)
  | [] => [[]]
  | c :: t =>
    if c = '\n' then [] :: linesOf t
    else
      match linesOf t with
      | [] => [[c]]
      | l :: ls => (c :: l) :: ls

/-- The title pattern `^HS\s+(.+)$` restricted to a single line: the hash
prefix, at least one whitespace character, then text reaching to the end of
the line.  Returns the text (which `extract_title` strips). -/
def lineTitle (hs line : List Char) : Option (List Char) :=
  if hs.isPrefixOf line then
    let r := line.drop hs.length
    if (r.takeWhile pyIsSpace).isEmpty then none
    else if (r.dropWhile pyIsSpace).isEmpty then none
    else some (r.dropWhile pyIsSpace)
  else none

/-- A line consisting of the hash prefix followed by whitespace only (the
shape on which the multiline `\s+` of the title patterns can reach across
the line break). -/
def hashWsLine (hs line : List Char) : Bool :=
  hs.isPrefixOf line && (line.drop hs.length).all pyIsSpace

/-- A line that, when it begins with hash characters, continues with a
non-whitespace character immediately after them (so it matches neither
title pattern, in line or across lines). -/
def hashNoWsLine (line : List Char) : Bool :=
  !(str "#").isPrefixOf line ||
    (match line.dropWhile (fun c => c == '#') with
     | [] => false
     | d :: _ => !pyIsSpace d)

/-- A template segment in which no occurrence of `pat` starts: `pat` does
not occur in the segment even when the segment is followed by `pat` itself
(the appended `pat.dropLast` covers occurrences that would straddle the
boundary). -/
def cleanSeg (seg pat : List Char) : Bool :=
  !occursSub pat (seg ++ pat.dropLast)

/-! ## Concrete behaviors cited by the claims -/

/-- C1: the claim is refuted by the code: although the fence step runs
first, the heading, autolink, and paragraph steps rescan the replaced
pre/code container.  A fenced line beginning with a hash becomes a heading
element, a URL inside fenced content is wrapped in a hyperlink, and a blank
line inside a fence splits the container and paragraph-wraps its tail. -/
theorem c1_fenced_content_reinterpreted :
    compile_markdown (str "```\nfoo\n# hi\n```") =
      str "<pre><code>foo\n<h2>hi</code></pre></h2>" ∧
    compile_markdown (str "```\nsee http://x.com\n```") =
      str "<pre><code>see <a href=\x27http://x.com\x27>http://x.com</a></code></pre>" ∧
    compile_markdown (str "```\na\n\nb\n```") =
      str "<pre><code>a\n\n<p>b</code></pre></p>" :=
  ⟨by decide, by decide, by decide⟩

/-- C2 counterexample: on the input `# Hello\nWorld` the compiler does not
produce the output the claim states. -/
theorem c2_counterexample :
    compile_markdown (str "# Hello\nWorld") ≠ str "<h2>Hello</h2>\n\n<p>World</p>" := by
  decide

/-- C2 amended: with no blank line between them, the heading line and the
following line form a single block; the block starts with the produced
heading tag, so it is passed through unchanged and `World` is not
paragraph-wrapped. -/
theorem c2_heading_then_text_same_block :
    compile_markdown (str "# Hello\nWorld") = str "<h2>Hello</h2>\nWorld" := by
  decide

/-- C5 counterexample: a line with four leading hash characters is
converted by the heading step (the `###` rule captures the surplus hash
into the heading text), contradicting the claim that such lines are not
converted. -/
theorem c5_counterexample :
    headingPass (str "#### Four") = str "<h4># Four</h4>" ∧
    compile_markdown (str "#### Four") = str "<h4># Four</h4>" :=
  ⟨by decide, by decide⟩

/-- C3 counterexample: the navigation fallback does not preserve the text
previously inside the element; the old interior `old` is discarded. -/
theorem c3_counterexample :
    mergeContents (str "<nav>old</nav>") (str "C") = str "<nav>\nC\n</nav>" ∧
    occursSub (str "old") (mergeContents (str "<nav>old</nav>") (str "C")) = false :=
  ⟨by decide, by decide⟩

/-- C4 counterexample: with two feed markers in the template, both are
replaced (Python `str.replace` replaces every occurrence), so the output
the claim predicts (second marker left in place) is not produced. -/
theorem c4_counterexample :
    mergeAll (str "A###BLOGS###B###BLOGS###C###BLOG-CONTENTS###D") (str "P") (str "Q") =
      str "APBPCQD" ∧
    str "APBPCQD" ≠ str "APB###BLOGS###CQD" :=
  ⟨by decide, by decide⟩

/-- C6 counterexample: in `#\nWorld` no line is a level-1 or level-2
heading line, yet the title pattern's `\s+` crosses the newline and the
extractor returns `World` instead of the fallback. -/
theorem c6_counterexample :
    extract_title (str "#\nWorld") (str "fb") = str "World" ∧
    str "World" ≠ str "fb" :=
  ⟨by decide, by decide⟩

/-! ## Helper lemmas -/

theorem toNat_ofNat_valid (n : Nat) (h : n < 55296) : (Char.ofNat n).toNat = n := by
  have hv : n.isValidChar := Or.inl h
  rw [Char.ofNat, dif_pos hv]
  unfold Char.ofNatAux
  simp [Char.toNat, UInt32.toNat, BitVec.toNat_ofNatLt]

theorem isUpper_iff (c : Char) : c.isUpper = true ↔ 65 ≤ c.toNat ∧ c.toNat ≤ 90 := by
  simp only [Char.isUpper, Bool.and_eq_true, decide_eq_true_eq, ge_iff_le]
  exact ⟨fun ⟨h1, h2⟩ => ⟨h1, h2⟩, fun ⟨h1, h2⟩ => ⟨h1, h2⟩⟩

theorem isLower_iff (c : Char) : c.isLower = true ↔ 97 ≤ c.toNat ∧ c.toNat ≤ 122 := by
  simp only [Char.isLower, Bool.and_eq_true, decide_eq_true_eq, ge_iff_le]
  exact ⟨fun ⟨h1, h2⟩ => ⟨h1, h2⟩, fun ⟨h1, h2⟩ => ⟨h1, h2⟩⟩

theorem pyToLower_toNat_of_upper (c : Char) (h : c.isUpper = true) :
    (pyToLower c).toNat = c.toNat + 32 := by
  have := (isUpper_iff c).mp h
  rw [pyToLower, if_pos h]
  exact toNat_ofNat_valid _ (by omega)

theorem pyToLower_isLower_of_upper (c : Char) (h : c.isUpper = true) :
    (pyToLower c).isLower = true := by
  have hb := (isUpper_iff c).mp h
  rw [isLower_iff, pyToLower_toNat_of_upper c h]
  omega

theorem pyToLower_of_not_upper (c : Char) (h : ¬c.isUpper = true) : pyToLower c = c := by
  rw [pyToLower, if_neg h]

theorem pyToLower_idem (c : Char) : pyToLower (pyToLower c) = pyToLower c := by
  by_cases h : c.isUpper = true
  · have hl := pyToLower_isLower_of_upper c h
    have hlo := (isLower_iff _).mp hl
    have : ¬(pyToLower c).isUpper = true := by
      rw [isUpper_iff]; omega
    exact pyToLower_of_not_upper _ this
  · rw [pyToLower_of_not_upper c h]
    exact pyToLower_of_not_upper c h

theorem slugKeep_pyToLower (c : Char) (h : slugKeep c = true) :
    slugKeep (pyToLower c) = true := by
  by_cases hu : c.isUpper = true
  · have hl := pyToLower_isLower_of_upper c hu
    simp [slugKeep, isWordChar, Char.isAlphanum, Char.isAlpha, hl]
  · rw [pyToLower_of_not_upper c hu]; exact h

theorem isWordChar_pyToLower_ne_dash (c : Char) (h : isWordChar c = true) :
    pyToLower c ≠ '-' := by
  by_cases hu : c.isUpper = true
  · intro he
    have := pyToLower_toNat_of_upper c hu
    rw [he] at this
    have hb := (isUpper_iff c).mp hu
    have h45 : ('-' : Char).toNat = 45 := rfl
    rw [h45] at this
    omega
  · rw [pyToLower_of_not_upper c hu]
    intro he
    rw [he] at h
    exact absurd h (by decide)

/- subBadGo lemmas -/
theorem mem_subBadGo (l : List Char) : ∀ b c, c ∈ subBadGo b l → slugKeep c = true := by
  induction l with
  | nil => intro b c h; simp [subBadGo] at h
  | cons x t ih =>
    intro b c h
    by_cases hx : slugKeep x
    · rw [subBadGo, if_pos hx] at h
      rcases List.mem_cons.mp h with h | h
      · subst h; exact hx
      · exact ih false c h
    · rw [subBadGo, if_neg hx] at h
      cases b with
      | true => exact ih true c (by simpa using h)
      | false =>
        simp only [Bool.false_eq_true, if_false] at h
        rcases List.mem_cons.mp h with h | h
        · subst h; decide
        · exact ih true c h

theorem subBadGo_id (l : List Char) (h : ∀ c ∈ l, slugKeep c = true) :
    ∀ b, subBadGo b l = l := by
  induction l with
  | nil => intro b; rfl
  | cons x t ih =>
    intro b
    have hx : slugKeep x = true := h x (List.mem_cons_self x t)
    rw [subBadGo, if_pos hx, ih (fun c hc => h c (List.mem_cons_of_mem x hc)) false]

/- dropWhile and strip lemmas -/
theorem dropWhile_head_not (p : Char → Bool) (l : List Char) :
    ∀ c, (l.dropWhile p).head? = some c → p c = false := by
  induction l with
  | nil => intro c h; simp [List.dropWhile] at h
  | cons x t ih =>
    intro c h
    rw [List.dropWhile_cons] at h
    by_cases hx : p x
    · rw [if_pos hx] at h; exact ih c h
    · rw [if_neg hx] at h
      simp at h
      rw [← h]
      simpa using hx

theorem dropWhile_getLast (p : Char → Bool) (l : List Char)
    (h : l.dropWhile p ≠ []) : (l.dropWhile p).getLast? = l.getLast? := by
  induction l with
  | nil => simp [List.dropWhile] at h
  | cons x t ih =>
    rw [List.dropWhile_cons] at h ⊢
    by_cases hx : p x
    · rw [if_pos hx] at h ⊢
      have ht : t ≠ [] := by
        intro he; subst he; simp [List.dropWhile] at h
      rw [ih h]
      cases t with
      | nil => exact absurd rfl ht
      | cons y u => rw [List.getLast?_cons_cons]
    · rw [if_neg hx]

theorem dropWhile_id_of_head (p : Char → Bool) (l : List Char)
    (h : ∀ c, l.head? = some c → p c = false) : l.dropWhile p = l := by
  cases l with
  | nil => rfl
  | cons x t =>
    rw [List.dropWhile_cons, if_neg]
    simp [h x rfl]

theorem mem_stripDash (l : List Char) (c : Char) (h : c ∈ stripDash l) : c ∈ l := by
  unfold stripDash at h
  rw [List.mem_reverse] at h
  have h1 := (List.dropWhile_sublist _).mem h
  rw [List.mem_reverse] at h1
  exact (List.dropWhile_sublist _).mem h1

theorem stripDash_head (l : List Char) (c : Char) (h : (stripDash l).head? = some c) :
    (c == '-') = false := by
  unfold stripDash at h
  rw [List.head?_reverse] at h
  set A := l.dropWhile (fun c => c == '-') with hA
  set B := A.reverse.dropWhile (fun c => c == '-') with hB
  have hBne : B ≠ [] := by
    intro he; rw [he] at h; simp at h
  have := dropWhile_getLast (fun c => c == '-') A.reverse hBne
  rw [← hB] at this
  rw [this, List.getLast?_reverse] at h
  exact dropWhile_head_not (fun c => c == '-') l c h

theorem stripDash_getLast (l : List Char) (c : Char)
    (h : (stripDash l).getLast? = some c) : (c == '-') = false := by
  unfold stripDash at h
  rw [List.getLast?_reverse] at h
  exact dropWhile_head_not (fun c => c == '-') _ c h

theorem stripDash_id (l : List Char)
    (hh : ∀ c, l.head? = some c → (c == '-') = false)
    (hl : ∀ c, l.getLast? = some c → (c == '-') = false) : stripDash l = l := by
  unfold stripDash
  rw [dropWhile_id_of_head _ l hh]
  rw [dropWhile_id_of_head _ l.reverse (fun c hc => hl c (by rwa [← List.head?_reverse]))]
  exact List.reverse_reverse l

/- ASCII collapse of the lowercase mapping -/
theorem pyToLower_ascii (c : Char) (h : c.toNat < 128) : (pyToLower c).toNat < 128 := by
  by_cases hu : c.isUpper = true
  · rw [pyToLower_toNat_of_upper c hu]
    have := (isUpper_iff c).mp hu
    omega
  · rw [pyToLower_of_not_upper c hu]; exact h

theorem pyLowerChar_ascii (c : Char) (h : c.toNat < 128) :
    pyLowerChar c = [pyToLower c] := by
  have hne : ¬(c == '\u0130') = true := by
    intro hcon
    have he : c = '\u0130' := by simpa using hcon
    subst he
    exact absurd h (by decide)
  rw [pyLowerChar, if_neg hne, pyToLower]
  by_cases hu : c.isUpper = true
  · rw [if_pos hu, if_pos hu]
  · rw [if_neg hu, if_neg hu]

theorem pyLower_eq_map (l : List Char) (h : ∀ c ∈ l, c.toNat < 128) :
    pyLower l = l.map pyToLower := by
  induction l with
  | nil => rfl
  | cons x t ih =>
    show pyLowerChar x ++ pyLower t = pyToLower x :: t.map pyToLower
    rw [pyLowerChar_ascii x (h x (List.mem_cons_self x t)),
      ih (fun c hc => h c (List.mem_cons_of_mem x hc))]
    rfl

theorem mem_subBadGo_src (l : List Char) :
    ∀ b c, c ∈ subBadGo b l → c ∈ l ∨ c = '-' := by
  induction l with
  | nil => intro b c h; simp [subBadGo] at h
  | cons x t ih =>
    intro b c h
    by_cases hx : slugKeep x
    · rw [subBadGo, if_pos hx] at h
      rcases List.mem_cons.mp h with h | h
      · exact Or.inl (h ▸ List.mem_cons_self x t)
      · rcases ih false c h with h | h
        · exact Or.inl (List.mem_cons_of_mem x h)
        · exact Or.inr h
    · rw [subBadGo, if_neg hx] at h
      cases b with
      | true =>
        rcases ih true c (by simpa using h) with h | h
        · exact Or.inl (List.mem_cons_of_mem x h)
        · exact Or.inr h
      | false =>
        simp only [Bool.false_eq_true, if_false] at h
        rcases List.mem_cons.mp h with h | h
        · exact Or.inr h
        · rcases ih true c h with h | h
          · exact Or.inl (List.mem_cons_of_mem x h)
          · exact Or.inr h

/- main C8 -/
theorem slugify_idempotent_ascii_core (x : List Char)
    (hA : ∀ c ∈ x, c.toNat < 128) : slugify (slugify x) = slugify x := by
  unfold slugify
  have hsub : ∀ c ∈ subBadGo false x, c.toNat < 128 := by
    intro c hc
    rcases mem_subBadGo_src x false c hc with h | h
    · exact hA c h
    · subst h; decide
  have hB : ∀ c ∈ stripDash (subBadGo false x), c.toNat < 128 :=
    fun c hc => hsub c (mem_stripDash _ c hc)
  rw [pyLower_eq_map _ hB]
  set s := (stripDash (subBadGo false x)).map pyToLower with hs
  by_cases he : s.isEmpty
  · rw [if_pos he]
    decide
  · rw [if_neg he]
    have hsascii : ∀ c ∈ s, c.toNat < 128 := by
      intro c hc
      rw [hs] at hc
      rcases List.mem_map.mp hc with ⟨d, hd, hcd⟩
      subst hcd
      exact pyToLower_ascii d (hB d hd)
    have hkeep : ∀ c ∈ s, slugKeep c = true := by
      intro c hc
      rw [hs] at hc
      rcases List.mem_map.mp hc with ⟨d, hd, hcd⟩
      subst hcd
      exact slugKeep_pyToLower d (mem_subBadGo _ _ d (mem_stripDash _ d hd))
    rw [subBadGo_id s hkeep false]
    have hsne : s ≠ [] := by
      intro h0; rw [h0] at he; simp at he
    have hAne : stripDash (subBadGo false x) ≠ [] := by
      intro h0
      rw [hs, h0] at hsne
      simp at hsne
    have hword : ∀ d ∈ stripDash (subBadGo false x), (d == '-') = false → isWordChar d = true := by
      intro d hd hnd
      have := mem_subBadGo _ false d (mem_stripDash _ d hd)
      rcases Bool.or_eq_true _ _ |>.mp this with h | h
      · exact h
      · rw [h] at hnd; simp at hnd
    have hstrip : stripDash s = s := by
      apply stripDash_id
      · intro c hc
        rw [hs] at hc
        rw [List.head?_map] at hc
        cases hA : (stripDash (subBadGo false x)).head? with
        | none => rw [hA] at hc; simp at hc
        | some d =>
          rw [hA] at hc
          simp at hc
          have hnd := stripDash_head _ d hA
          have hw := hword d (List.mem_of_mem_head? hA) hnd
          have := isWordChar_pyToLower_ne_dash d hw
          rw [← hc]
          simpa using this
      · intro c hc
        rw [hs, List.getLast?_map] at hc
        cases hA : (stripDash (subBadGo false x)).getLast? with
        | none => rw [hA] at hc; simp at hc
        | some d =>
          rw [hA] at hc
          simp at hc
          have hnd := stripDash_getLast _ d hA
          have hw := hword d (List.mem_of_mem_getLast? hA) hnd
          have := isWordChar_pyToLower_ne_dash d hw
          rw [← hc]
          simpa using this
    rw [hstrip, pyLower_eq_map s hsascii]
    have hmap : s.map pyToLower = s := by
      rw [hs, List.map_map]
      exact List.map_congr_left (fun a _ => pyToLower_idem a)
    rw [hmap, if_neg he]

/- generic takeWhile and dropWhile facts -/
theorem takeWhile_all (p : Char → Bool) (l : List Char) (h : ∀ c ∈ l, p c = true) :
    l.takeWhile p = l := by
  induction l with
  | nil => rfl
  | cons x t ih =>
    rw [List.takeWhile_cons, if_pos (h x (List.mem_cons_self x t))]
    rw [ih (fun c hc => h c (List.mem_cons_of_mem x hc))]

theorem dropWhile_all (p : Char → Bool) (l : List Char) (h : ∀ c ∈ l, p c = true) :
    l.dropWhile p = [] := by
  induction l with
  | nil => rfl
  | cons x t ih =>
    rw [List.dropWhile_cons, if_pos (h x (List.mem_cons_self x t))]
    exact ih (fun c hc => h c (List.mem_cons_of_mem x hc))

theorem no_nl_all (s : List Char) (h : '\n' ∉ s) : ∀ c ∈ s, (c != '\n') = true := by
  intro c hc
  simp only [bne_iff_ne, ne_eq]
  rintro rfl
  exact h hc

/- heading pass lemmas -/
theorem headSubF_no_match (hs o cl : List Char) (f : Nat) (s : List Char)
    (hnl : '\n' ∉ s) (hp : hs.isPrefixOf s = false) :
    headSubF hs o cl f s = s := by
  cases f with
  | zero => rfl
  | succ f =>
    rw [headSubF]
    by_cases hse : s.isEmpty
    · rw [if_pos hse]
      exact (List.isEmpty_iff.mp hse).symm
    · rw [if_neg hse]
      have hm : headMatch hs s = none := by rw [headMatch, if_neg (by simp [hp])]
      rw [hm]
      rw [takeWhile_all _ s (no_nl_all s hnl), dropWhile_all _ s (no_nl_all s hnl)]

theorem headSubF_line (hs o cl : List Char) (f : Nat) (s g : List Char)
    (hne : s.isEmpty = false) (h : headMatch hs s = some (g, [])) :
    headSubF hs o cl (f + 1) s = o ++ g ++ cl := by
  rw [headSubF, if_neg (by simp [hne]), h]
  simp

/- membership helpers -/
theorem not_mem_cons_of (a x : Char) (t : List Char) (hne : (a == x) = false)
    (h : a ∉ t) : a ∉ x :: t := by
  intro hm
  rcases List.mem_cons.mp hm with h1 | h1
  · subst h1; simp at hne
  · exact h h1

theorem not_mem_append_of (a : Char) (l1 l2 : List Char) (h1 : a ∉ l1) (h2 : a ∉ l2) :
    a ∉ l1 ++ l2 := by
  intro h
  rcases List.mem_append.mp h with h | h
  exacts [h1 h, h2 h]

/- C5 match computations -/
theorem headMatch_one (c : Char) (t : List Char) (hc : pyIsSpace c = false)
    (hnl : '\n' ∉ c :: t) :
    headMatch (str "#") ('#' :: ' ' :: c :: t) = some (c :: t, []) := by
  have hct := no_nl_all _ hnl
  have hdropc : (c :: t).dropWhile pyIsSpace = c :: t := by
    rw [List.dropWhile_cons, if_neg (by simp [hc])]
  have h1 : (' ' :: c :: t).dropWhile pyIsSpace = c :: t := by
    rw [List.dropWhile_cons, if_pos (by decide), hdropc]
  rw [headMatch, if_pos (by simp [str, List.isPrefixOf])]
  simp only [str, List.length_cons, List.length_nil, List.drop_succ_cons, List.drop_zero]
  rw [h1]
  simp only [List.isEmpty_cons, Bool.false_eq_true, if_false]
  rw [takeWhile_all _ _ hct, dropWhile_all _ _ hct]

theorem headMatch_at (hs s : List Char) (d : Char) (r : List Char)
    (hpre : hs.isPrefixOf s = true) (hdrop : s.drop hs.length = d :: r)
    (hd : pyIsSpace d = false) (hnl : '\n' ∉ d :: r) :
    headMatch hs s = some (d :: r, []) := by
  have hct := no_nl_all _ hnl
  have hdropd : (d :: r).dropWhile pyIsSpace = d :: r := by
    rw [List.dropWhile_cons, if_neg (by simp [hd])]
  rw [headMatch, if_pos hpre]
  simp only [hdrop, hdropd]
  simp only [List.isEmpty_cons, Bool.false_eq_true, if_false]
  rw [takeWhile_all _ _ hct, dropWhile_all _ _ hct]

theorem headMatch_sp (hs s : List Char) (d : Char) (r : List Char)
    (hpre : hs.isPrefixOf s = true) (hdrop : s.drop hs.length = ' ' :: d :: r)
    (hd : pyIsSpace d = false) (hnl : '\n' ∉ d :: r) :
    headMatch hs s = some (d :: r, []) := by
  have hct := no_nl_all _ hnl
  have hdropd : (' ' :: d :: r).dropWhile pyIsSpace = d :: r := by
    rw [List.dropWhile_cons, if_pos (by decide), List.dropWhile_cons, if_neg (by simp [hd])]
  rw [headMatch, if_pos hpre]
  simp only [hdrop, hdropd]
  simp only [List.isEmpty_cons, Bool.false_eq_true, if_false]
  rw [takeWhile_all _ _ hct, dropWhile_all _ _ hct]

/- C5 amended -/
theorem headingPass_hash_levels (k : Nat) (c : Char) (t : List Char) (hk : 1 ≤ k)
    (hc : pyIsSpace c = false) (hnl : '\n' ∉ c :: t) :
    headingPass (List.replicate k '#' ++ ' ' :: c :: t) =
      if k = 1 then str "<h2>" ++ (c :: t) ++ str "</h2>"
      else if k = 2 then str "<h3>" ++ (c :: t) ++ str "</h3>"
      else if k = 3 then str "<h4>" ++ (c :: t) ++ str "</h4>"
      else str "<h4>" ++ (List.replicate (k - 3) '#' ++ ' ' :: c :: t) ++ str "</h4>" := by
  rcases k with _ | _ | _ | _ | m
  · omega
  · -- k = 1
    have hrep : List.replicate (0 + 1) '#' ++ ' ' :: c :: t = '#' :: ' ' :: c :: t := by
      simp [List.replicate_succ]
    rw [hrep]
    have hnl1 : '\n' ∉ '#' :: ' ' :: c :: t :=
      not_mem_cons_of _ _ _ (by decide) (not_mem_cons_of _ _ _ (by decide) hnl)
    have hout : '\n' ∉ str "<h2>" ++ (c :: t) ++ str "</h2>" :=
      not_mem_append_of _ _ _ (not_mem_append_of _ _ _ (by decide) hnl) (by decide)
    unfold headingPass
    dsimp only []
    have e1 : headSubF (str "###") (str "<h4>") (str "</h4>")
        (('#' :: ' ' :: c :: t).length + 1) ('#' :: ' ' :: c :: t) = '#' :: ' ' :: c :: t :=
      headSubF_no_match _ _ _ _ _ hnl1 (by simp [str, List.isPrefixOf])
    rw [e1]
    have e2 : headSubF (str "##") (str "<h3>") (str "</h3>")
        (('#' :: ' ' :: c :: t).length + 1) ('#' :: ' ' :: c :: t) = '#' :: ' ' :: c :: t :=
      headSubF_no_match _ _ _ _ _ hnl1 (by simp [str, List.isPrefixOf])
    rw [e2]
    have e3 : headSubF (str "#") (str "<h2>") (str "</h2>")
        (('#' :: ' ' :: c :: t).length + 1) ('#' :: ' ' :: c :: t) =
        str "<h2>" ++ (c :: t) ++ str "</h2>" :=
      headSubF_line (str "#") (str "<h2>") (str "</h2>") ('#' :: ' ' :: c :: t).length
        ('#' :: ' ' :: c :: t) (c :: t) (by simp)
        (headMatch_sp (str "#") ('#' :: ' ' :: c :: t) c t
          (by simp [str, List.isPrefixOf]) rfl hc hnl)
    rw [e3]
    norm_num
  · -- k = 2
    have hrep : List.replicate (0 + 1 + 1) '#' ++ ' ' :: c :: t =
        '#' :: '#' :: ' ' :: c :: t := by
      simp [List.replicate_succ]
    rw [hrep]
    have hnl1 : '\n' ∉ '#' :: '#' :: ' ' :: c :: t :=
      not_mem_cons_of _ _ _ (by decide) (not_mem_cons_of _ _ _ (by decide)
        (not_mem_cons_of _ _ _ (by decide) hnl))
    have hout : '\n' ∉ str "<h3>" ++ (c :: t) ++ str "</h3>" :=
      not_mem_append_of _ _ _ (not_mem_append_of _ _ _ (by decide) hnl) (by decide)
    unfold headingPass
    dsimp only []
    have e1 : headSubF (str "###") (str "<h4>") (str "</h4>")
        (('#' :: '#' :: ' ' :: c :: t).length + 1) ('#' :: '#' :: ' ' :: c :: t) =
        '#' :: '#' :: ' ' :: c :: t :=
      headSubF_no_match _ _ _ _ _ hnl1 (by simp [str, List.isPrefixOf])
    rw [e1]
    have e2 : headSubF (str "##") (str "<h3>") (str "</h3>")
        (('#' :: '#' :: ' ' :: c :: t).length + 1) ('#' :: '#' :: ' ' :: c :: t) =
        str "<h3>" ++ (c :: t) ++ str "</h3>" :=
      headSubF_line (str "##") (str "<h3>") (str "</h3>") ('#' :: '#' :: ' ' :: c :: t).length
        ('#' :: '#' :: ' ' :: c :: t) (c :: t) (by simp)
        (headMatch_sp (str "##") ('#' :: '#' :: ' ' :: c :: t) c t
          (by simp [str, List.isPrefixOf]) rfl hc hnl)
    rw [e2]
    have e3 : headSubF (str "#") (str "<h2>") (str "</h2>")
        ((str "<h3>" ++ (c :: t) ++ str "</h3>").length + 1)
        (str "<h3>" ++ (c :: t) ++ str "</h3>") = str "<h3>" ++ (c :: t) ++ str "</h3>" :=
      headSubF_no_match _ _ _ _ _ hout (by simp [str, List.isPrefixOf])
    rw [e3]
    norm_num
  · -- k = 3
    have hrep : List.replicate (0 + 1 + 1 + 1) '#' ++ ' ' :: c :: t =
        '#' :: '#' :: '#' :: ' ' :: c :: t := by
      simp [List.replicate_succ]
    rw [hrep]
    have hout : '\n' ∉ str "<h4>" ++ (c :: t) ++ str "</h4>" :=
      not_mem_append_of _ _ _ (not_mem_append_of _ _ _ (by decide) hnl) (by decide)
    unfold headingPass
    dsimp only []
    have e1 : headSubF (str "###") (str "<h4>") (str "</h4>")
        (('#' :: '#' :: '#' :: ' ' :: c :: t).length + 1) ('#' :: '#' :: '#' :: ' ' :: c :: t) =
        str "<h4>" ++ (c :: t) ++ str "</h4>" :=
      headSubF_line (str "###") (str "<h4>") (str "</h4>")
        ('#' :: '#' :: '#' :: ' ' :: c :: t).length
        ('#' :: '#' :: '#' :: ' ' :: c :: t) (c :: t) (by simp)
        (headMatch_sp (str "###") ('#' :: '#' :: '#' :: ' ' :: c :: t) c t
          (by simp [str, List.isPrefixOf]) rfl hc hnl)
    rw [e1]
    have e2 : headSubF (str "##") (str "<h3>") (str "</h3>")
        ((str "<h4>" ++ (c :: t) ++ str "</h4>").length + 1)
        (str "<h4>" ++ (c :: t) ++ str "</h4>") = str "<h4>" ++ (c :: t) ++ str "</h4>" :=
      headSubF_no_match _ _ _ _ _ hout (by simp [str, List.isPrefixOf])
    rw [e2]
    have e3 : headSubF (str "#") (str "<h2>") (str "</h2>")
        ((str "<h4>" ++ (c :: t) ++ str "</h4>").length + 1)
        (str "<h4>" ++ (c :: t) ++ str "</h4>") = str "<h4>" ++ (c :: t) ++ str "</h4>" :=
      headSubF_no_match _ _ _ _ _ hout (by simp [str, List.isPrefixOf])
    rw [e3]
    norm_num
  · -- k = m + 4
    have hrep : List.replicate (m + 1 + 1 + 1 + 1) '#' ++ ' ' :: c :: t =
        '#' :: '#' :: '#' :: ('#' :: (List.replicate m '#' ++ ' ' :: c :: t)) := by
      simp [List.replicate_succ]
    rw [hrep]
    have hnlr : '\n' ∉ '#' :: (List.replicate m '#' ++ ' ' :: c :: t) := by
      apply not_mem_cons_of _ _ _ (by decide)
      apply not_mem_append_of
      · simp [List.mem_replicate]
      · exact not_mem_cons_of _ _ _ (by decide) hnl
    have hout : '\n' ∉ str "<h4>" ++ ('#' :: (List.replicate m '#' ++ ' ' :: c :: t)) ++
        str "</h4>" :=
      not_mem_append_of _ _ _ (not_mem_append_of _ _ _ (by decide) hnlr) (by decide)
    unfold headingPass
    dsimp only []
    have e1 : headSubF (str "###") (str "<h4>") (str "</h4>")
        (('#' :: '#' :: '#' :: ('#' :: (List.replicate m '#' ++ ' ' :: c :: t))).length + 1)
        ('#' :: '#' :: '#' :: ('#' :: (List.replicate m '#' ++ ' ' :: c :: t))) =
        str "<h4>" ++ ('#' :: (List.replicate m '#' ++ ' ' :: c :: t)) ++ str "</h4>" :=
      headSubF_line (str "###") (str "<h4>") (str "</h4>")
        ('#' :: '#' :: '#' :: ('#' :: (List.replicate m '#' ++ ' ' :: c :: t))).length
        ('#' :: '#' :: '#' :: ('#' :: (List.replicate m '#' ++ ' ' :: c :: t)))
        ('#' :: (List.replicate m '#' ++ ' ' :: c :: t)) (by simp)
        (headMatch_at (str "###")
          ('#' :: '#' :: '#' :: ('#' :: (List.replicate m '#' ++ ' ' :: c :: t)))
          '#' (List.replicate m '#' ++ ' ' :: c :: t)
          (by simp [str, List.isPrefixOf]) rfl (by decide) hnlr)
    rw [e1]
    have e2 : headSubF (str "##") (str "<h3>") (str "</h3>")
        ((str "<h4>" ++ ('#' :: (List.replicate m '#' ++ ' ' :: c :: t)) ++ str "</h4>").length + 1)
        (str "<h4>" ++ ('#' :: (List.replicate m '#' ++ ' ' :: c :: t)) ++ str "</h4>") =
        str "<h4>" ++ ('#' :: (List.replicate m '#' ++ ' ' :: c :: t)) ++ str "</h4>" :=
      headSubF_no_match _ _ _ _ _ hout (by simp [str, List.isPrefixOf])
    rw [e2]
    have e3 : headSubF (str "#") (str "<h2>") (str "</h2>")
        ((str "<h4>" ++ ('#' :: (List.replicate m '#' ++ ' ' :: c :: t)) ++ str "</h4>").length + 1)
        (str "<h4>" ++ ('#' :: (List.replicate m '#' ++ ' ' :: c :: t)) ++ str "</h4>") =
        str "<h4>" ++ ('#' :: (List.replicate m '#' ++ ' ' :: c :: t)) ++ str "</h4>" :=
      headSubF_no_match _ _ _ _ _ hout (by simp [str, List.isPrefixOf])
    rw [e3]
    have : m + 1 + 1 + 1 + 1 - 3 = m + 1 := by omega
    rw [if_neg (by omega), if_neg (by omega), if_neg (by omega), this]
    simp [List.replicate_succ]

/- C7: code fence pass -/
theorem codeFenceF_id (f : Nat) (s : List Char) (h : '`' ∉ s) : codeFenceF f s = s := by
  induction f generalizing s with
  | zero => rfl
  | succ f ih =>
    cases s with
    | nil => rfl
    | cons c t =>
      have hc : c ≠ '`' := by
        intro he; subst he; exact h (List.mem_cons_self _ _)
      rw [codeFenceF, if_neg]
      · rw [ih t (fun hm => h (List.mem_cons_of_mem c hm))]
      · simp [str, List.isPrefixOf]
        intro he
        exact absurd he.symm hc

theorem word_run_split (tag rest : List Char) (h : ∀ x ∈ tag, isWordChar x = true) :
    (tag ++ '\n' :: rest).takeWhile isWordChar = tag ∧
      (tag ++ '\n' :: rest).dropWhile isWordChar = '\n' :: rest := by
  induction tag with
  | nil =>
    constructor
    · rw [List.nil_append, List.takeWhile_cons, if_neg (by decide)]
    · rw [List.nil_append, List.dropWhile_cons, if_neg (by decide)]
  | cons x tg ih =>
    have hx : isWordChar x = true := h x (List.mem_cons_self _ _)
    have ih2 := ih (fun y hy => h y (List.mem_cons_of_mem x hy))
    constructor
    · rw [List.cons_append, List.takeWhile_cons, if_pos hx, ih2.1]
    · rw [List.cons_append, List.dropWhile_cons, if_pos hx, ih2.2]

theorem codeFence_scan (tag cde b : List Char) (htag : ∀ x ∈ tag, isWordChar x = true)
    (hb : '`' ∉ b)
    (hsplit : splitAtFirst (str "\n```") (cde ++ str "\n```" ++ b) = some (cde, b)) :
    ∀ (a : List Char) (f : Nat), '`' ∉ a → a.length + 1 ≤ f →
      codeFenceF f (a ++ str "```" ++ tag ++ '\n' :: (cde ++ str "\n```" ++ b)) =
        a ++ replCode tag cde ++ b := by
  intro a
  induction a with
  | nil =>
    intro f _ hf
    cases f with
    | zero => omega
    | succ f =>
      rw [List.nil_append, List.nil_append]
      have hshape : str "```" ++ tag ++ '\n' :: (cde ++ str "\n```" ++ b) =
          '`' :: ('`' :: '`' :: (tag ++ '\n' :: (cde ++ str "\n```" ++ b))) := by
        simp [str]
      rw [hshape, codeFenceF, if_pos (by simp [str, List.isPrefixOf])]
      have hdrop3 : ('`' :: ('`' :: '`' :: (tag ++ '\n' :: (cde ++ str "\n```" ++ b)))).drop 3 =
          tag ++ '\n' :: (cde ++ str "\n```" ++ b) := rfl
      simp only [hdrop3]
      rw [(word_run_split tag _ htag).2]
      simp only [hsplit]
      rw [(word_run_split tag _ htag).1, codeFenceF_id f b hb]
  | cons x a ih =>
    intro f hx hf
    have hxe : x ≠ '`' := by
      intro he; subst he; exact hx (List.mem_cons_self _ _)
    cases f with
    | zero => omega
    | succ f =>
      have hpre : (str "```").isPrefixOf
          (x :: (a ++ str "```" ++ tag ++ '\n' :: (cde ++ str "\n```" ++ b))) = false := by
        simp [str, List.isPrefixOf]
        intro he
        exact absurd he.symm hxe
      rw [List.cons_append, List.cons_append, List.cons_append]
      rw [show codeFenceF (f + 1)
            (x :: (a ++ str "```" ++ tag ++ '\n' :: (cde ++ str "\n```" ++ b))) =
          x :: codeFenceF f (a ++ str "```" ++ tag ++ '\n' :: (cde ++ str "\n```" ++ b)) by
        rw [codeFenceF, if_neg (by simp only [hpre]; exact Bool.false_ne_true)]]
      rw [ih f (fun hm => hx (List.mem_cons_of_mem x hm)) (by simpa using hf)]
      simp

/- prefix and occurrence machinery -/
theorem isPrefixOf_congr_take (pat : List Char) :
    ∀ (s t : List Char), s.take pat.length = t.take pat.length →
      pat.isPrefixOf s = pat.isPrefixOf t := by
  induction pat with
  | nil => intro s t _; cases s <;> cases t <;> rfl
  | cons p ps ih =>
    intro s t h
    cases s with
    | nil =>
      cases t with
      | nil => rfl
      | cons y ty => simp [List.take] at h
    | cons x tx =>
      cases t with
      | nil => simp [List.take] at h
      | cons y ty =>
        simp only [List.length_cons, List.take_succ_cons, List.cons.injEq] at h
        rw [List.isPrefixOf_cons₂, List.isPrefixOf_cons₂, h.1, ih tx ty h.2]

theorem isPrefixOf_nil (l : List Char) : ([] : List Char).isPrefixOf l = true := by
  cases l <;> rfl

theorem isPrefixOf_append_self (pat b : List Char) : pat.isPrefixOf (pat ++ b) = true := by
  induction pat with
  | nil => rw [List.nil_append]; exact isPrefixOf_nil b
  | cons p ps ih => rw [List.cons_append, List.isPrefixOf_cons₂, ih]; simp

theorem isPrefixOf_append_of (pat : List Char) :
    ∀ (s b : List Char), pat.isPrefixOf s = true → pat.isPrefixOf (s ++ b) = true := by
  induction pat with
  | nil => intro s b _; exact isPrefixOf_nil _
  | cons p ps ih =>
    intro s b h
    cases s with
    | nil => exact Bool.noConfusion h
    | cons c t =>
      rw [List.cons_append]
      rw [List.isPrefixOf_cons₂] at h ⊢
      simp only [Bool.and_eq_true] at h ⊢
      exact ⟨h.1, ih t b h.2⟩

theorem occursSub_head (pat s : List Char) (h : pat.isPrefixOf s = true) :
    occursSub pat s = true := by
  cases s with
  | nil =>
    cases pat with
    | nil => rfl
    | cons p ps => exact Bool.noConfusion h
  | cons c t =>
    show (pat.isPrefixOf (c :: t) || occursSub pat t) = true
    rw [h]
    rfl

theorem occursSub_append_mid (pat a b : List Char) :
    occursSub pat (a ++ pat ++ b) = true := by
  induction a with
  | nil =>
    rw [List.nil_append]
    exact occursSub_head _ _ (isPrefixOf_append_self pat b)
  | cons x a ih =>
    rw [List.cons_append]
    show (occursSub pat (x :: (a ++ pat ++ b))) = true
    have : occursSub pat (x :: (a ++ pat ++ b)) =
        (pat.isPrefixOf (x :: (a ++ pat ++ b)) || occursSub pat (a ++ pat ++ b)) := rfl
    rw [this, ih]
    simp

theorem occursSub_append_right (pat : List Char) :
    ∀ (s b : List Char), occursSub pat s = true → occursSub pat (s ++ b) = true := by
  intro s
  induction s with
  | nil =>
    intro b h
    have : pat = [] := List.isEmpty_iff.mp h
    subst this
    rw [List.nil_append]
    cases b with
    | nil => rfl
    | cons c t => exact occursSub_head _ _ (isPrefixOf_nil _)
  | cons c t ih =>
    intro b h
    replace h : (pat.isPrefixOf (c :: t) || occursSub pat t) = true := h
    rw [List.cons_append]
    show (pat.isPrefixOf (c :: (t ++ b)) || occursSub pat (t ++ b)) = true
    rcases Bool.or_eq_true _ _ |>.mp h with h | h
    · have hp := isPrefixOf_append_of pat (c :: t) b h
      rw [List.cons_append] at hp
      rw [hp]
      rfl
    · rw [ih b h]
      simp

/- pyReplace lemmas -/
theorem pyReplaceF_no_occur (old new : List Char) :
    ∀ (f : Nat) (s : List Char), occursSub old s = false → pyReplaceF old new f s = s := by
  intro f
  induction f with
  | zero => intro s _; rfl
  | succ f ih =>
    intro s h
    cases s with
    | nil => rfl
    | cons c t =>
      replace h : (old.isPrefixOf (c :: t) || occursSub old t) = false := h
      simp only [Bool.or_eq_false_iff] at h
      rw [pyReplaceF, if_neg (by simp [h.1]), ih t h.2]

theorem cleanSeg_no_occur (a old : List Char) (h : cleanSeg a old = true) :
    occursSub old a = false := by
  unfold cleanSeg at h
  simp only [Bool.not_eq_true'] at h
  cases ho : occursSub old a with
  | false => rfl
  | true => rw [occursSub_append_right old a _ ho] at h; cases h

theorem take_eq_of_mid (a u v : List Char) (n : Nat)
    (h : u.take (n - a.length) = v.take (n - a.length)) :
    (a ++ u).take n = (a ++ v).take n := by
  rw [List.take_append_eq_append_take, List.take_append_eq_append_take, h]

theorem take_dropLast_eq (old b : List Char) (m : Nat) (hm : m ≤ old.length - 1) :
    old.dropLast.take m = (old ++ b).take m := by
  rw [List.dropLast_eq_take, List.take_take]
  rw [List.take_append_of_le_length (by omega)]
  congr 1
  omega

theorem not_prefix_shift (old a b : List Char) (x : Char)
    (h : old.isPrefixOf (x :: (a ++ old.dropLast)) = false) :
    old.isPrefixOf (x :: (a ++ old ++ b)) = false := by
  rw [List.append_assoc]
  rw [← h]
  apply isPrefixOf_congr_take
  cases hn : old.length with
  | zero => simp
  | succ n =>
    rw [List.take_succ_cons, List.take_succ_cons]
    congr 1
    apply (take_eq_of_mid a _ _ n _).symm
    apply take_dropLast_eq
    omega

theorem cleanSeg_cons (old a : List Char) (x : Char) (h : cleanSeg (x :: a) old = true) :
    old.isPrefixOf (x :: (a ++ old.dropLast)) = false ∧ cleanSeg a old = true := by
  unfold cleanSeg at h ⊢
  simp only [Bool.not_eq_true'] at h ⊢
  replace h : (old.isPrefixOf (x :: (a ++ old.dropLast)) ||
      occursSub old (a ++ old.dropLast)) = false := h
  simp only [Bool.or_eq_false_iff] at h
  exact ⟨h.1, h.2⟩

theorem pyReplaceF_fuel (old new : List Char) (hold : old ≠ []) :
    ∀ (n : Nat) (s : List Char) (f g : Nat), s.length ≤ n → s.length < f → s.length < g →
      pyReplaceF old new f s = pyReplaceF old new g s := by
  intro n
  induction n with
  | zero =>
    intro s f g hs hf hg
    have hs0 : s = [] := List.length_eq_zero.mp (Nat.le_zero.mp hs)
    subst hs0
    cases f with
    | zero => omega
    | succ f =>
      cases g with
      | zero => omega
      | succ g => rfl
  | succ n ih =>
    intro s f g hs hf hg
    cases s with
    | nil =>
      cases f with
      | zero => omega
      | succ f =>
        cases g with
        | zero => omega
        | succ g => rfl
    | cons c t =>
      cases f with
      | zero => omega
      | succ f =>
        cases g with
        | zero => omega
        | succ g =>
          have holen : 1 ≤ old.length := by
            cases old with
            | nil => exact absurd rfl hold
            | cons o ot => simp
          simp only [List.length_cons] at hs hf hg
          by_cases hp : old.isPrefixOf (c :: t) = true
          · rw [pyReplaceF, pyReplaceF, if_pos hp, if_pos hp]
            congr 1
            have hdl : ((c :: t).drop old.length).length = t.length + 1 - old.length := by
              rw [List.length_drop, List.length_cons]
            exact ih _ f g (by omega) (by omega) (by omega)
          · rw [pyReplaceF, pyReplaceF, if_neg hp, if_neg hp]
            rw [ih t f g (by omega) (by omega) (by omega)]

theorem pyReplaceF_append (old new b : List Char) (hold : old ≠ []) :
    ∀ (a : List Char) (f : Nat), cleanSeg a old = true → (a ++ old ++ b).length < f →
      pyReplaceF old new f (a ++ old ++ b) = a ++ new ++ pyReplace b old new := by
  intro a
  induction a with
  | nil =>
    intro f hclean hf
    cases f with
    | zero => omega
    | succ f =>
      rw [List.nil_append, List.nil_append]
      obtain ⟨o, ot, hol⟩ : ∃ o ot, old = o :: ot := by
        cases old with
        | nil => exact absurd rfl hold
        | cons o ot => exact ⟨o, ot, rfl⟩
      have hpre : old.isPrefixOf (old ++ b) = true := isPrefixOf_append_self old b
      have hb : b.length < f := by
        simp only [List.length_append, hol, List.length_cons] at hf
        omega
      have hstep : pyReplaceF old new (f + 1) (old ++ b) =
          new ++ pyReplaceF old new f ((old ++ b).drop old.length) := by
        conv_lhs => rw [hol, List.cons_append]
        rw [pyReplaceF, if_pos (by rw [← List.cons_append, ← hol]; exact hpre)]
        rw [← List.cons_append, ← hol]
      rw [hstep, List.drop_left old b]
      congr 1
      exact pyReplaceF_fuel old new hold b.length b f (b.length + 1) (le_refl _) hb (by omega)
  | cons x a ih =>
    intro f hclean hf
    cases f with
    | zero => omega
    | succ f =>
      obtain ⟨hnp0, hclean2⟩ := cleanSeg_cons old a x hclean
      have hnp := not_prefix_shift old a b x hnp0
      rw [List.cons_append, List.cons_append]
      rw [pyReplaceF, if_neg (by rw [hnp]; exact Bool.false_ne_true)]
      rw [ih f hclean2 (by simp at hf ⊢; omega)]
      simp

theorem pyReplace_intercalate (old new : List Char) (hold : old ≠ []) :
    ∀ segs : List (List Char), (∀ seg ∈ segs, cleanSeg seg old = true) →
      pyReplace (List.intercalate old segs) old new = List.intercalate new segs := by
  intro segs
  induction segs with
  | nil => intro _; rfl
  | cons s rest ih =>
    intro h
    cases rest with
    | nil =>
      have h1 : List.intercalate old [s] = s := by simp [List.intercalate, List.intersperse]
      have h2 : List.intercalate new [s] = s := by simp [List.intercalate, List.intersperse]
      rw [h1, h2]
      exact pyReplaceF_no_occur old new _ s (cleanSeg_no_occur s old (h s (by simp)))
    | cons s2 rest2 =>
      have h1 : List.intercalate old (s :: s2 :: rest2) =
          s ++ old ++ List.intercalate old (s2 :: rest2) := by
        simp [List.intercalate, List.intersperse]
      have h2 : List.intercalate new (s :: s2 :: rest2) =
          s ++ new ++ List.intercalate new (s2 :: rest2) := by
        simp [List.intercalate, List.intersperse]
      rw [h1, h2]
      unfold pyReplace
      rw [pyReplaceF_append old new _ hold s _ (h s (by simp)) (by omega)]
      rw [ih (fun seg hs => h seg (by simp [hs]))]

/- C4 amended -/
theorem markers_core :
    (∀ (segs : List (List Char)) (posts : List Char), 2 ≤ segs.length →
      (∀ seg ∈ segs, cleanSeg seg blogsMarker = true) →
      mergeFeed (List.intercalate blogsMarker segs) posts = List.intercalate posts segs) ∧
    (∀ (segs : List (List Char)) (contents : List Char), 2 ≤ segs.length →
      (∀ seg ∈ segs, cleanSeg seg contentsMarker = true) →
      mergeContents (List.intercalate contentsMarker segs) contents =
        List.intercalate contents segs) := by
  constructor
  · intro segs posts hlen hseg
    obtain ⟨s1, s2, rest, hsegs⟩ : ∃ s1 s2 rest, segs = s1 :: s2 :: rest := by
      cases segs with
      | nil => simp at hlen
      | cons s1 r =>
        cases r with
        | nil => simp at hlen
        | cons s2 rest => exact ⟨s1, s2, rest, rfl⟩
    subst hsegs
    have hform : List.intercalate blogsMarker (s1 :: s2 :: rest) =
        s1 ++ blogsMarker ++ List.intercalate blogsMarker (s2 :: rest) := by
      simp [List.intercalate, List.intersperse]
    have hocc : occursSub blogsMarker (List.intercalate blogsMarker (s1 :: s2 :: rest)) = true := by
      rw [hform]; exact occursSub_append_mid _ _ _
    rw [mergeFeed, if_pos hocc]
    exact pyReplace_intercalate blogsMarker posts (by decide) _ hseg
  · intro segs contents hlen hseg
    obtain ⟨s1, s2, rest, hsegs⟩ : ∃ s1 s2 rest, segs = s1 :: s2 :: rest := by
      cases segs with
      | nil => simp at hlen
      | cons s1 r =>
        cases r with
        | nil => simp at hlen
        | cons s2 rest => exact ⟨s1, s2, rest, rfl⟩
    subst hsegs
    have hform : List.intercalate contentsMarker (s1 :: s2 :: rest) =
        s1 ++ contentsMarker ++ List.intercalate contentsMarker (s2 :: rest) := by
      simp [List.intercalate, List.intersperse]
    have hocc : occursSub contentsMarker
        (List.intercalate contentsMarker (s1 :: s2 :: rest)) = true := by
      rw [hform]; exact occursSub_append_mid _ _ _
    rw [mergeContents, if_pos hocc]
    exact pyReplace_intercalate contentsMarker contents (by decide) _ hseg

/- C3: navigation fallback -/
theorem run_split (p : Char → Bool) (u : List Char) (x : Char) (v : List Char)
    (hu : ∀ c ∈ u, p c = true) (hx : p x = false) :
    (u ++ x :: v).takeWhile p = u ∧ (u ++ x :: v).dropWhile p = x :: v := by
  induction u with
  | nil =>
    constructor
    · rw [List.nil_append, List.takeWhile_cons, if_neg (by simp [hx])]
    · rw [List.nil_append, List.dropWhile_cons, if_neg (by simp [hx])]
  | cons c u ih =>
    have hc : p c = true := hu c (List.mem_cons_self _ _)
    have ih2 := ih (fun y hy => hu y (List.mem_cons_of_mem c hy))
    constructor
    · rw [List.cons_append, List.takeWhile_cons, if_pos hc, ih2.1]
    · rw [List.cons_append, List.dropWhile_cons, if_pos hc, ih2.2]

theorem take_na (m : Nat) (hm : m ≤ 3) (X : List Char) :
    (str "<na").take m = (str "<nav" ++ X).take m := by
  rcases m with _ | _ | _ | _ | m
  · rfl
  · rfl
  · rfl
  · rfl
  · omega

theorem navSub_scan (attrs mid post contents : List Char)
    (hgt : '>' ∉ attrs)
    (hhead : ∀ c, attrs.head? = some c → isWordChar c = false)
    (hsplit : splitAtFirst (str "</nav>") (mid ++ str "</nav>" ++ post) = some (mid, post)) :
    ∀ (a : List Char) (f : Nat),
      occursSub (str "<nav") (a ++ str "<na") = false → a.length + 1 ≤ f →
      navSubF contents f (a ++ str "<nav" ++ attrs ++ '>' :: (mid ++ str "</nav>" ++ post)) =
        a ++ str "<nav" ++ attrs ++ '>' :: '\n' ::
          (contents ++ '\n' :: (str "</nav>" ++ post)) := by
  intro a
  induction a with
  | nil =>
    intro f _ hf
    cases f with
    | zero => omega
    | succ f =>
      simp only [List.nil_append]
      have hshape : str "<nav" ++ attrs ++ '>' :: (mid ++ str "</nav>" ++ post) =
          '<' :: ('n' :: 'a' :: 'v' :: (attrs ++ '>' :: (mid ++ str "</nav>" ++ post))) := by
        simp [str]
      rw [hshape, navSubF, if_pos (by simp [str, List.isPrefixOf])]
      have hdrop4 :
          ('<' :: ('n' :: 'a' :: 'v' :: (attrs ++ '>' :: (mid ++ str "</nav>" ++ post)))).drop 4 =
          attrs ++ '>' :: (mid ++ str "</nav>" ++ post) := rfl
      simp only [hdrop4]
      have hrun := run_split (fun x => x != '>') attrs '>' (mid ++ str "</nav>" ++ post)
        (fun c hc => by
          simp only [bne_iff_ne, ne_eq, decide_eq_true_eq]
          intro he; subst he; exact hgt hc)
        (by decide)
      cases hat : attrs with
      | nil =>
        rw [hat] at hrun
        simp only [List.nil_append] at hrun ⊢
        have hw : isWordChar '>' = false := by decide
        simp only [hw, Bool.false_eq_true, if_false]
        rw [hrun.1, hrun.2]
        simp only [hsplit]
      | cons c2 at2 =>
        have hw : isWordChar c2 = false := hhead c2 (by rw [hat]; rfl)
        rw [hat] at hrun
        simp only [List.cons_append] at hrun ⊢
        simp only [hw, Bool.false_eq_true, if_false]
        rw [hrun.1, hrun.2]
        simp only [hsplit]
  | cons x a ih =>
    intro f hocc hf
    cases f with
    | zero => omega
    | succ f =>
      replace hocc : ((str "<nav").isPrefixOf (x :: (a ++ str "<na")) ||
          occursSub (str "<nav") (a ++ str "<na")) = false := hocc
      simp only [Bool.or_eq_false_iff] at hocc
      have hnp : (str "<nav").isPrefixOf
          (x :: (a ++ str "<nav" ++ attrs ++ '>' :: (mid ++ str "</nav>" ++ post))) = false := by
        rw [← hocc.1]
        apply isPrefixOf_congr_take
        rw [show (str "<nav").length = 4 from rfl]
        rw [List.take_succ_cons, List.take_succ_cons]
        congr 1
        rw [show a ++ str "<nav" ++ attrs ++ '>' :: (mid ++ str "</nav>" ++ post) =
          a ++ (str "<nav" ++ (attrs ++ '>' :: (mid ++ str "</nav>" ++ post))) by
            simp [List.append_assoc]]
        apply (take_eq_of_mid a _ _ 3 _).symm
        exact take_na _ (by omega) _
      rw [List.cons_append, List.cons_append, List.cons_append, List.cons_append]
      rw [navSubF, if_neg (by rw [hnp]; exact Bool.false_ne_true)]
      rw [ih f hocc.2 (by simpa using hf)]

theorem navReplace_core (pre attrs mid post contents : List Char)
    (hmarker : occursSub contentsMarker
      (pre ++ str "<nav" ++ attrs ++ '>' :: (mid ++ str "</nav>" ++ post)) = false)
    (hpre : occursSub (str "<nav") (pre ++ str "<na") = false)
    (hgt : '>' ∉ attrs)
    (hhead : ∀ c, attrs.head? = some c → isWordChar c = false)
    (hsplit : splitAtFirst (str "</nav>") (mid ++ str "</nav>" ++ post) = some (mid, post)) :
    mergeContents (pre ++ str "<nav" ++ attrs ++ '>' :: (mid ++ str "</nav>" ++ post)) contents =
      pre ++ str "<nav" ++ attrs ++ '>' :: '\n' ::
        (contents ++ '\n' :: (str "</nav>" ++ post)) := by
  have hnav : occursSub (str "<nav")
      (pre ++ str "<nav" ++ attrs ++ '>' :: (mid ++ str "</nav>" ++ post)) = true := by
    have hd : pre ++ str "<nav" ++ attrs ++ '>' :: (mid ++ str "</nav>" ++ post) =
        pre ++ str "<nav" ++ (attrs ++ '>' :: (mid ++ str "</nav>" ++ post)) := by
      simp [List.append_assoc]
    rw [hd]
    exact occursSub_append_mid _ _ _
  have hclose : occursSub (str "</nav>")
      (pre ++ str "<nav" ++ attrs ++ '>' :: (mid ++ str "</nav>" ++ post)) = true := by
    have hd : pre ++ str "<nav" ++ attrs ++ '>' :: (mid ++ str "</nav>" ++ post) =
        (pre ++ str "<nav" ++ attrs ++ '>' :: mid) ++ str "</nav>" ++ post := by
      simp [List.append_assoc]
    rw [hd]
    exact occursSub_append_mid _ _ _
  rw [mergeContents, if_neg (by rw [hmarker]; exact Bool.false_ne_true),
    if_pos (by rw [hnav, hclose]; rfl)]
  apply navSub_scan attrs mid post contents hgt hhead hsplit pre _ hpre
  simp [List.length_append]

/- C7 claim theorem -/
theorem codeFence_core :
    (∀ (a tag cde b : List Char), '`' ∉ a → '`' ∉ b →
      (∀ x ∈ tag, isWordChar x = true) →
      splitAtFirst (str "\n```") (cde ++ str "\n```" ++ b) = some (cde, b) →
      codeFenceF ((a ++ str "```" ++ tag ++ '\n' :: (cde ++ str "\n```" ++ b)).length + 1)
          (a ++ str "```" ++ tag ++ '\n' :: (cde ++ str "\n```" ++ b)) =
        a ++ (if tag.isEmpty then str "<pre><code>" ++ htmlEscape cde ++ str "</code></pre>"
              else str "<pre><code class=\x27language-" ++ htmlEscape tag ++ str "\x27>" ++
                htmlEscape cde ++ str "</code></pre>") ++ b) ∧
    compile_markdown (str "```python\nprint(1)\n```") =
      str "<pre><code class=\x27language-python\x27>print(1)</code></pre>" := by
  constructor
  · intro a tag cde b ha hb htag hsplit
    have := codeFence_scan tag cde b htag hb hsplit a
      ((a ++ str "```" ++ tag ++ '\n' :: (cde ++ str "\n```" ++ b)).length + 1) ha
      (by simp [List.length_append])
    rw [this]
    rfl
  · decide

/- C9 claim theorem -/
theorem mainModel_fatal_core (inp : RunInput)
    (h : inp.blogsDirExists = false ∨ inp.templateExists = false) :
    (mainModel inp).writtenOutput = none ∧ (mainModel inp).exitCode = 1 ∧
      (mainModel inp).diagnostic ≠ none := by
  rcases h with h | h
  · simp [mainModel, h, RunResult.writtenOutput, RunResult.exitCode, RunResult.diagnostic]
  · by_cases hb : inp.blogsDirExists <;>
      simp [mainModel, h, hb, RunResult.writtenOutput, RunResult.exitCode, RunResult.diagnostic]

/- line machinery for C6 and C10 -/
theorem prefix_drop (hs s : List Char) (h : hs.isPrefixOf s = true) :
    hs ++ s.drop hs.length = s := by
  induction hs generalizing s with
  | nil => simp
  | cons x hst ih =>
    cases s with
    | nil => exact absurd h (by simp [List.isPrefixOf])
    | cons c t =>
      rw [List.isPrefixOf_cons₂] at h
      simp only [Bool.and_eq_true, beq_iff_eq] at h
      rw [List.cons_append, List.length_cons, List.drop_succ_cons, h.1, ih t h.2]

theorem takeWhile_append_all (p : Char → Bool) (u v : List Char)
    (h : ∀ c ∈ u, p c = true) : (u ++ v).takeWhile p = u ++ v.takeWhile p := by
  induction u with
  | nil => simp
  | cons c t ih =>
    rw [List.cons_append, List.takeWhile_cons, if_pos (h c (List.mem_cons_self _ _)),
      List.cons_append, ih (fun x hx => h x (List.mem_cons_of_mem c hx))]

theorem dropWhile_append_all (p : Char → Bool) (u v : List Char)
    (h : ∀ c ∈ u, p c = true) : (u ++ v).dropWhile p = v.dropWhile p := by
  induction u with
  | nil => simp
  | cons c t ih =>
    rw [List.cons_append, List.dropWhile_cons, if_pos (h c (List.mem_cons_self _ _)),
      ih (fun x hx => h x (List.mem_cons_of_mem c hx))]

theorem all_of_dropWhile_nil (p : Char → Bool) (r : List Char)
    (h : r.dropWhile p = []) : ∀ c ∈ r, p c = true := by
  induction r with
  | nil => intro c hc; simp at hc
  | cons x t ih =>
    intro c hc
    rw [List.dropWhile_cons] at h
    by_cases hx : p x = true
    · rw [if_pos hx] at h
      rcases List.mem_cons.mp hc with h1 | h1
      · subst h1; exact hx
      · exact ih h c h1
    · rw [if_neg hx] at h
      simp at h

theorem ws_split (r : List Char)
    (h : ∃ c ∈ r.takeWhile (fun c => c != '\n'), pyIsSpace c = false) :
    r.takeWhile pyIsSpace = (r.takeWhile (fun c => c != '\n')).takeWhile pyIsSpace ∧
      r.dropWhile pyIsSpace =
        (r.takeWhile (fun c => c != '\n')).dropWhile pyIsSpace ++
          r.dropWhile (fun c => c != '\n') := by
  induction r with
  | nil => obtain ⟨c, hc, _⟩ := h; simp at hc
  | cons x t ih =>
    by_cases hxn : (x != '\n') = true
    · have e1 : List.takeWhile (fun c => c != '\n') (x :: t) =
          x :: List.takeWhile (fun c => c != '\n') t := by
        rw [List.takeWhile_cons, if_pos hxn]
      have e2 : List.dropWhile (fun c => c != '\n') (x :: t) =
          List.dropWhile (fun c => c != '\n') t := by
        rw [List.dropWhile_cons, if_pos hxn]
      rw [e1] at h
      rw [e1, e2]
      by_cases hxs : pyIsSpace x = true
      · have hex : ∃ c ∈ t.takeWhile (fun c => c != '\n'), pyIsSpace c = false := by
          obtain ⟨c, hc, hcs⟩ := h
          rcases List.mem_cons.mp hc with h1 | h1
          · subst h1; rw [hxs] at hcs; cases hcs
          · exact ⟨c, h1, hcs⟩
        have iht := ih hex
        constructor
        · rw [List.takeWhile_cons, if_pos hxs, List.takeWhile_cons, if_pos hxs, iht.1]
        · rw [List.dropWhile_cons, if_pos hxs, List.dropWhile_cons, if_pos hxs, iht.2]
      · constructor
        · rw [List.takeWhile_cons, if_neg hxs, List.takeWhile_cons, if_neg hxs]
        · rw [List.dropWhile_cons, if_neg hxs, List.dropWhile_cons, if_neg hxs,
            List.cons_append]
          congr 1
          exact (List.takeWhile_append_dropWhile _ _).symm
    · rw [List.takeWhile_cons, if_neg hxn] at h
      obtain ⟨c, hc, _⟩ := h
      simp at hc

theorem isPrefixOf_of_prefix_takeWhile (hs : List Char) (p : Char → Bool) :
    ∀ (s : List Char), hs.isPrefixOf (s.takeWhile p) = true → hs.isPrefixOf s = true := by
  induction hs with
  | nil => intro s _; exact isPrefixOf_nil s
  | cons x hst ih =>
    intro s h
    cases s with
    | nil => simp [List.takeWhile] at h
    | cons c t =>
      rw [List.takeWhile_cons] at h
      by_cases hc : p c = true
      · rw [if_pos hc] at h
        rw [List.isPrefixOf_cons₂] at h ⊢
        simp only [Bool.and_eq_true] at h ⊢
        exact ⟨h.1, ih t h.2⟩
      · rw [if_neg hc] at h
        exact absurd h (by simp [List.isPrefixOf])

theorem linesOf_eq (s : List Char) :
    linesOf s = s.takeWhile (fun c => c != '\n') ::
      (match s.dropWhile (fun c => c != '\n') with
        | [] => []
        | _ :: t2 => linesOf t2) := by
  induction s with
  | nil => rfl
  | cons c t ih =>
    by_cases hc : c = '\n'
    · subst hc
      rw [linesOf, if_pos rfl, List.takeWhile_cons, if_neg (by simp),
        List.dropWhile_cons, if_neg (by simp)]
    · rw [linesOf, if_neg hc, List.takeWhile_cons, if_pos (by simp [hc]),
        List.dropWhile_cons, if_pos (by simp [hc]), ih]

theorem lineTitle_not_prefix (hs line : List Char) (h : hs.isPrefixOf line = false) :
    lineTitle hs line = none := by
  rw [lineTitle, if_neg (by rw [h]; exact Bool.false_ne_true)]

theorem searchHead_skip (hs : List Char) (f : Nat) (s : List Char) (hsne : s ≠ [])
    (hm : headMatchPlus hs s = none)
    (hl : lineTitle hs (s.takeWhile (fun c => c != '\n')) = none)
    (hrec : ∀ d t2, s.dropWhile (fun c => c != '\n') = d :: t2 →
      searchHeadF hs f t2 = (linesOf t2).findSome? (lineTitle hs)) :
    searchHeadF hs (f + 1) s = (linesOf s).findSome? (lineTitle hs) := by
  rw [searchHeadF, if_neg (by simp [hsne]), hm]
  rw [linesOf_eq s, List.findSome?_cons, hl]
  cases hdw : s.dropWhile (fun c => c != '\n') with
  | nil => rfl
  | cons d t2 => exact hrec d t2 hdw

theorem tw_dw_length (p : Char → Bool) (s : List Char) :
    (s.takeWhile p).length + (s.dropWhile p).length = s.length := by
  conv_rhs => rw [← List.takeWhile_append_dropWhile p s]
  exact (List.length_append _ _).symm

theorem searchHead_lines (hs : List Char) (hne : hs ≠ []) (hnl : '\n' ∉ hs) :
    ∀ (f : Nat) (s : List Char), s.length < f →
      (∀ l ∈ linesOf s, hashWsLine hs l = false) →
      searchHeadF hs f s = (linesOf s).findSome? (lineTitle hs) := by
  intro f
  induction f with
  | zero => intro s h _; omega
  | succ f ih =>
    intro s hlen hcond
    have hpre_nil : hs.isPrefixOf [] = false := by
      cases hs with
      | nil => exact absurd rfl hne
      | cons a b => rfl
    by_cases hsE : s = []
    · subst hsE
      rw [searchHeadF, if_pos (show ([] : List Char).isEmpty = true from rfl)]
      rw [show linesOf [] = [[]] from rfl, List.findSome?_cons,
        lineTitle_not_prefix hs [] hpre_nil]
      rfl
    · -- recursion helper: the skipped-line branch
      have hrecstep : ∀ d t2, s.dropWhile (fun c => c != '\n') = d :: t2 →
          searchHeadF hs f t2 = (linesOf t2).findSome? (lineTitle hs) := by
        intro d t2 hdw
        apply ih
        · have hl8 := tw_dw_length (fun c => c != '\n') s
          rw [hdw] at hl8
          simp only [List.length_cons] at hl8
          omega
        · intro l hl
          apply hcond
          rw [linesOf_eq s, hdw]
          exact List.mem_cons_of_mem _ hl
      by_cases hpre : hs.isPrefixOf s = true
      · -- the anchored attempt sees the hash prefix
        have hsplit := prefix_drop hs s hpre
        have hhs_nl : ∀ c ∈ hs, (c != '\n') = true := no_nl_all hs hnl
        have hL0 : s.takeWhile (fun c => c != '\n') =
            hs ++ (s.drop hs.length).takeWhile (fun c => c != '\n') := by
          conv_lhs => rw [← hsplit]
          exact takeWhile_append_all _ hs _ hhs_nl
        have hD : s.dropWhile (fun c => c != '\n') =
            (s.drop hs.length).dropWhile (fun c => c != '\n') := by
          conv_lhs => rw [← hsplit]
          exact dropWhile_append_all _ hs _ hhs_nl
        have hcondL0 := hcond _ (by rw [linesOf_eq s]; exact List.mem_cons_self _ _)
        rw [hashWsLine, hL0] at hcondL0
        rw [isPrefixOf_append_self] at hcondL0
        rw [List.drop_left] at hcondL0
        simp only [Bool.true_and] at hcondL0
        -- so the line remainder has a non-whitespace character
        have hrl_exists : ∃ c ∈ (s.drop hs.length).takeWhile (fun c => c != '\n'),
            pyIsSpace c = false := by
          by_contra hcon
          push_neg at hcon
          have : ((s.drop hs.length).takeWhile (fun c => c != '\n')).all pyIsSpace = true := by
            rw [List.all_eq_true]
            intro c hc
            by_contra hc2
            exact absurd (hcon c hc) (by simp [Bool.not_eq_true] at hc2 ⊢; exact hc2)
          rw [this] at hcondL0
          cases hcondL0
        by_cases hW : (s.drop hs.length).takeWhile pyIsSpace = []
        · -- whitespace requirement fails at this line: no match, skip
          have hmp : headMatchPlus hs s = none := by
            rw [headMatchPlus, if_pos hpre]
            simp only [hW]
            rfl
          have hlt : lineTitle hs (s.takeWhile (fun c => c != '\n')) = none := by
            rw [lineTitle, if_pos (by rw [hL0]; exact isPrefixOf_append_self _ _)]
            rw [hL0, List.drop_left]
            have : ((s.drop hs.length).takeWhile (fun c => c != '\n')).takeWhile pyIsSpace
                = [] := by
              cases hr : s.drop hs.length with
              | nil => simp [hr]
              | cons c rt =>
                rw [hr] at hW
                rw [List.takeWhile_cons] at hW
                by_cases hcs : pyIsSpace c = true
                · rw [if_pos hcs] at hW; simp at hW
                · rw [List.takeWhile_cons]
                  by_cases hcn : (c != '\n') = true
                  · rw [if_pos hcn, List.takeWhile_cons, if_neg hcs]
                  · rw [if_neg hcn]
                    rfl
            simp only [this]
            rfl
          exact searchHead_skip hs f s hsE hmp hlt hrecstep
        · by_cases hR : (s.drop hs.length).dropWhile pyIsSpace = []
          · -- remainder after the hashes is all whitespace: the line is a
            -- hash-whitespace line, excluded by the side condition
            exfalso
            have hall : ∀ c ∈ s.drop hs.length, pyIsSpace c = true :=
              all_of_dropWhile_nil _ _ hR
            obtain ⟨c, hc, hcs⟩ := hrl_exists
            have : c ∈ s.drop hs.length := (List.takeWhile_sublist _).mem hc
            rw [hall c this] at hcs
            cases hcs
          · -- in-line match
            obtain ⟨hws1, hws2⟩ := ws_split (s.drop hs.length) hrl_exists
            have hrlR_ne :
                (((s.drop hs.length).takeWhile (fun c => c != '\n')).dropWhile pyIsSpace) ≠
                  [] := by
              intro hcon
              obtain ⟨c, hc, hcs⟩ := hrl_exists
              rw [all_of_dropWhile_nil _ _ hcon c hc] at hcs
              cases hcs
            have hgroup : ((s.drop hs.length).dropWhile pyIsSpace).takeWhile
                (fun c => c != '\n') =
                ((s.drop hs.length).takeWhile (fun c => c != '\n')).dropWhile pyIsSpace := by
              rw [hws2]
              have hallnl : ∀ c ∈ ((s.drop hs.length).takeWhile
                  (fun c => c != '\n')).dropWhile pyIsSpace, (c != '\n') = true := by
                intro c hc
                have h2 : c ∈ (s.drop hs.length).takeWhile (fun c => c != '\n') :=
                  (List.dropWhile_sublist _).mem hc
                exact @List.mem_takeWhile_imp Char (fun c => c != '\n')
                  (s.drop hs.length) c h2
              rw [takeWhile_append_all _ _ _ hallnl]
              cases hdw : (s.drop hs.length).dropWhile (fun c => c != '\n') with
              | nil => simp
              | cons d t2 =>
                have hd : (fun c => c != '\n') d = false :=
                  dropWhile_head_not _ _ d (by rw [hdw]; rfl)
                rw [List.takeWhile_cons, if_neg (by simp [hd])]
                simp
            have hmp : headMatchPlus hs s = some
                (((s.drop hs.length).takeWhile (fun c => c != '\n')).dropWhile pyIsSpace) := by
              rw [headMatchPlus, if_pos hpre]
              rw [if_neg (by simp only [List.isEmpty_iff]; exact hW)]
              rw [if_neg (by simp only [List.isEmpty_iff]; exact hR)]
              rw [hgroup]
            have hlt : lineTitle hs (s.takeWhile (fun c => c != '\n')) = some
                (((s.drop hs.length).takeWhile (fun c => c != '\n')).dropWhile pyIsSpace) := by
              rw [lineTitle, if_pos (by rw [hL0]; exact isPrefixOf_append_self _ _)]
              rw [hL0, List.drop_left]
              rw [if_neg (by
                simp only [List.isEmpty_iff]
                rw [← hws1]
                exact hW)]
              rw [if_neg (by simp only [List.isEmpty_iff]; exact hrlR_ne)]
            rw [searchHeadF, if_neg (by simp [hsE]), hmp]
            rw [linesOf_eq s, List.findSome?_cons, hlt]
      · -- no hash prefix at this line: skip
        have hmp : headMatchPlus hs s = none := by
          rw [headMatchPlus, if_neg hpre]
        have hlt : lineTitle hs (s.takeWhile (fun c => c != '\n')) = none := by
          apply lineTitle_not_prefix
          cases hp2 : hs.isPrefixOf (s.takeWhile (fun c => c != '\n')) with
          | false => rfl
          | true => rw [isPrefixOf_of_prefix_takeWhile hs _ s hp2] at hpre; simp at hpre
        exact searchHead_skip hs f s hsE hmp hlt hrecstep

/- C6 amended -/
theorem titleLines_core (md fb : List Char)
    (hcond : ∀ l ∈ linesOf md,
      hashWsLine (str "#") l = false ∧ hashWsLine (str "##") l = false) :
    extract_title md fb =
      match (linesOf md).findSome? (lineTitle (str "#")) with
      | some g => stripWS g
      | none =>
        match (linesOf md).findSome? (lineTitle (str "##")) with
        | some g => stripWS g
        | none => fb := by
  rw [extract_title]
  rw [searchHead_lines (str "#") (by decide) (by decide) (md.length + 1) md (by omega)
    (fun l hl => (hcond l hl).1)]
  rw [searchHead_lines (str "##") (by decide) (by decide) (md.length + 1) md (by omega)
    (fun l hl => (hcond l hl).2)]

/- C10 helpers -/
theorem takeWhile_ws_nil_of_head (r : List Char)
    (h : ∀ c, r.head? = some c → pyIsSpace c = false) : r.takeWhile pyIsSpace = [] := by
  cases r with
  | nil => rfl
  | cons x t => rw [List.takeWhile_cons, if_neg (by simp [h x rfl])]

theorem hashNoWs_props (l : List Char) (h : hashNoWsLine l = true) :
    hashWsLine (str "#") l = false ∧ hashWsLine (str "##") l = false ∧
      lineTitle (str "#") l = none ∧ lineTitle (str "##") l = none := by
  have hone : str "#" = ['#'] := rfl
  have htwo : str "##" = ['#', '#'] := rfl
  by_cases hp : (str "#").isPrefixOf l = true
  · -- the line starts with a hash
    rw [hashNoWsLine] at h
    rw [hp] at h
    simp only [Bool.not_true, Bool.false_or] at h
    obtain ⟨d, rest, hD⟩ : ∃ d rest, l.dropWhile (fun c => c == '#') = d :: rest := by
      cases hD0 : l.dropWhile (fun c => c == '#') with
      | nil => rw [hD0] at h; cases h
      | cons d rest => exact ⟨d, rest, rfl⟩
    rw [hD] at h
    replace h : (!pyIsSpace d) = true := h
    have hdws : pyIsSpace d = false := by simpa using h
    have hHsplit := List.takeWhile_append_dropWhile (fun c => c == '#') l
    have hHall : ∀ c ∈ l.takeWhile (fun c => c == '#'), c = '#' := by
      intro c hc
      have := List.mem_takeWhile_imp hc
      simpa using this
    obtain ⟨l2, hl2⟩ : ∃ l2, l = '#' :: l2 := by
      cases l with
      | nil => rw [hone] at hp; exact absurd hp (by simp [List.isPrefixOf])
      | cons c t =>
        rw [hone, List.isPrefixOf_cons₂] at hp
        simp only [Bool.and_eq_true, beq_iff_eq] at hp
        exact ⟨t, by rw [hp.1]⟩
    have hH1 : 1 ≤ (l.takeWhile (fun c => c == '#')).length := by
      rw [hl2, List.takeWhile_cons, if_pos (by decide)]
      simp
    have hdk : ∀ (k : Nat), k ≤ (l.takeWhile (fun c => c == '#')).length →
        l.drop k = (l.takeWhile (fun c => c == '#')).drop k ++ (d :: rest) := by
      intro k hk
      conv_lhs => rw [← hHsplit]
      rw [List.drop_append_eq_append_drop]
      rw [hD]
      rw [show k - (l.takeWhile (fun c => c == '#')).length = 0 from by omega]
      rfl
    have hhead : ∀ (k : Nat), k ≤ (l.takeWhile (fun c => c == '#')).length →
        ∀ c, (l.drop k).head? = some c → pyIsSpace c = false := by
      intro k hk c hc
      rw [hdk k hk] at hc
      cases hTk : (l.takeWhile (fun c => c == '#')).drop k with
      | nil =>
        rw [hTk] at hc
        simp at hc
        rw [← hc]
        exact hdws
      | cons x xs =>
        rw [hTk] at hc
        simp at hc
        have hx : x ∈ l.takeWhile (fun c => c == '#') :=
          (List.drop_sublist k _).mem (by rw [hTk]; exact List.mem_cons_self _ _)
        rw [← hc, hHall x hx]
        decide
    have hnoall : ∀ (k : Nat), k ≤ (l.takeWhile (fun c => c == '#')).length →
        (l.drop k).all pyIsSpace = false := by
      intro k hk
      cases hall : (l.drop k).all pyIsSpace with
      | false => rfl
      | true =>
        rw [List.all_eq_true] at hall
        have hd_mem : d ∈ l.drop k := by
          rw [hdk k hk]
          exact List.mem_append_right _ (List.mem_cons_self _ _)
        rw [hall d hd_mem] at hdws
        cases hdws
    by_cases hp2 : (str "##").isPrefixOf l = true
    · have hH2 : 2 ≤ (l.takeWhile (fun c => c == '#')).length := by
        obtain ⟨l3, hl3⟩ : ∃ l3, l = '#' :: '#' :: l3 := by
          cases l with
          | nil => rw [htwo] at hp2; exact absurd hp2 (by simp [List.isPrefixOf])
          | cons c t =>
            rw [htwo, List.isPrefixOf_cons₂] at hp2
            simp only [Bool.and_eq_true, beq_iff_eq] at hp2
            cases t with
            | nil => exact absurd hp2.2 (by simp [List.isPrefixOf])
            | cons c2 t2 =>
              rw [List.isPrefixOf_cons₂] at hp2
              obtain ⟨hc1, hc2, _⟩ := by
                simpa only [Bool.and_eq_true, beq_iff_eq] using hp2
              exact ⟨t2, by rw [← hc1, ← hc2]⟩
        rw [hl3, List.takeWhile_cons, if_pos (by decide),
          List.takeWhile_cons, if_pos (by decide)]
        simp
      refine ⟨?_, ?_, ?_, ?_⟩
      · rw [hashWsLine, hp]
        simp only [Bool.true_and]
        exact hnoall 1 hH1
      · rw [hashWsLine, hp2]
        simp only [Bool.true_and]
        exact hnoall 2 hH2
      · rw [lineTitle, if_pos hp]
        rw [show (str "#").length = 1 from rfl]
        dsimp only []
        rw [takeWhile_ws_nil_of_head _ (hhead 1 hH1)]
        rfl
      · rw [lineTitle, if_pos hp2]
        rw [show (str "##").length = 2 from rfl]
        dsimp only []
        rw [takeWhile_ws_nil_of_head _ (hhead 2 hH2)]
        rfl
    · refine ⟨?_, ?_, ?_, ?_⟩
      · rw [hashWsLine, hp]
        simp only [Bool.true_and]
        exact hnoall 1 hH1
      · rw [hashWsLine]
        simp only [Bool.not_eq_true] at hp2
        rw [hp2]
        rfl
      · rw [lineTitle, if_pos hp]
        rw [show (str "#").length = 1 from rfl]
        dsimp only []
        rw [takeWhile_ws_nil_of_head _ (hhead 1 hH1)]
        rfl
      · exact lineTitle_not_prefix _ _ (Bool.not_eq_true _ |>.mp hp2)
  · -- no hash at the start: nothing matches
    simp only [Bool.not_eq_true] at hp
    have hp2 : (str "##").isPrefixOf l = false := by
      cases l with
      | nil => rfl
      | cons c t =>
        rw [htwo, List.isPrefixOf_cons₂]
        rw [hone, List.isPrefixOf_cons₂] at hp
        simp only [Bool.and_eq_false_iff] at hp ⊢
        rcases hp with hp | hp
        · exact Or.inl hp
        · exact absurd (isPrefixOf_nil t) (by simp [hp])
    refine ⟨?_, ?_, ?_, ?_⟩
    · rw [hashWsLine, hp]; rfl
    · rw [hashWsLine, hp2]; rfl
    · exact lineTitle_not_prefix _ _ hp
    · exact lineTitle_not_prefix _ _ hp2

theorem titleFallback_core :
    (∀ (md fb : List Char), (∀ l ∈ linesOf md, hashNoWsLine l = true) →
      extract_title md fb = fb) ∧
    compile_markdown (str "#X") = str "<h2>X</h2>" ∧
    extract_title (str "#X") (str "fallback") = str "fallback" := by
  refine ⟨?_, by decide, by decide⟩
  intro md fb hcond
  rw [extract_title]
  rw [searchHead_lines (str "#") (by decide) (by decide) (md.length + 1) md (by omega)
    (fun l hl => (hashNoWs_props l (hcond l hl)).1)]
  rw [searchHead_lines (str "##") (by decide) (by decide) (md.length + 1) md (by omega)
    (fun l hl => (hashNoWs_props l (hcond l hl)).2.1)]
  have h1 : (linesOf md).findSome? (lineTitle (str "#")) = none :=
    List.findSome?_eq_none_iff.mpr (fun l hl => (hashNoWs_props l (hcond l hl)).2.2.1)
  have h2 : (linesOf md).findSome? (lineTitle (str "##")) = none :=
    List.findSome?_eq_none_iff.mpr (fun l hl => (hashNoWs_props l (hcond l hl)).2.2.2)
  simp only [h1, h2]

/-! ## Universal claim theorems and witnesses -/

/-- C8 counterexample: slugify is NOT idempotent on full Unicode input.
The regex class matches U+0130 (LATIN CAPITAL LETTER I WITH DOT ABOVE),
but lowercasing expands that character to `i` followed by the combining
mark U+0307, which the class does not match, so a second application
replaces the mark by a hyphen and strips it: `slugify "İ"` is the two
code points `i`, U+0307, while `slugify (slugify "İ")` is plain `i`. -/
theorem slugify_unicode_counterexample :
    slugify (slugify (str "\u0130")) ≠ slugify (str "\u0130") ∧
    slugify (str "\u0130") = ['i', '\u0307'] ∧
    slugify (slugify (str "\u0130")) = str "i" :=
  ⟨by decide, by decide, by decide⟩

/-- C8 (amended): slugify is idempotent on ASCII input: for every string
all of whose characters are ASCII code points, applying slugify twice
gives the same result as applying it once. -/
theorem slugify_idempotent_ascii (x : List Char)
    (h : x.all (fun c => decide (c.toNat < 128)) = true) :
    slugify (slugify x) = slugify x :=
  slugify_idempotent_ascii_core x
    (fun c hc => by simpa using List.all_eq_true.mp h c hc)

/-- C8 witness: the amended theorem at the concrete ASCII name
`My Blog Post!!`. -/
theorem slugify_idempotent_ascii_witness :
    (str "My Blog Post!!").all (fun c => decide (c.toNat < 128)) = true ∧
    slugify (slugify (str "My Blog Post!!")) = slugify (str "My Blog Post!!") :=
  ⟨by decide, slugify_idempotent_ascii (str "My Blog Post!!") (by decide)⟩

/-- C5 amended: a line of `k` hash characters, a space, and text becomes a
level-2 heading for one hash, level-3 for two, level-4 for three, and is
still converted for four or more hashes: the `###` rule emits a level-4
heading whose text keeps the surplus hash characters and the space. -/
theorem headingLevels_of_hash_run (k : Nat) (c : Char) (t : List Char) (hk : 1 ≤ k)
    (hc : pyIsSpace c = false) (hnl : '\n' ∉ c :: t) :
    headingPass (List.replicate k '#' ++ ' ' :: c :: t) =
      if k = 1 then str "<h2>" ++ (c :: t) ++ str "</h2>"
      else if k = 2 then str "<h3>" ++ (c :: t) ++ str "</h3>"
      else if k = 3 then str "<h4>" ++ (c :: t) ++ str "</h4>"
      else str "<h4>" ++ (List.replicate (k - 3) '#' ++ ' ' :: c :: t) ++ str "</h4>" :=
  headingPass_hash_levels k c t hk hc hnl

/-- C5 witness: the amended statement at four hashes and the text `Four`. -/
theorem headingLevels_of_hash_run_witness :
    (1 ≤ 4 ∧ pyIsSpace 'F' = false ∧ '\n' ∉ 'F' :: str "our") ∧
    headingPass (List.replicate 4 '#' ++ ' ' :: 'F' :: str "our") =
      (if 4 = 1 then str "<h2>" ++ ('F' :: str "our") ++ str "</h2>"
       else if 4 = 2 then str "<h3>" ++ ('F' :: str "our") ++ str "</h3>"
       else if 4 = 3 then str "<h4>" ++ ('F' :: str "our") ++ str "</h4>"
       else str "<h4>" ++ (List.replicate (4 - 3) '#' ++ ' ' :: 'F' :: str "our") ++
         str "</h4>") :=
  ⟨⟨by decide, by decide, by decide⟩,
   headingLevels_of_hash_run 4 'F' (str "our") (by decide) (by decide) (by decide)⟩

/-- C3 amended: when the template has no contents marker, the merger
rewrites the first navigation element by keeping its opening and closing
tags, inserting the contents string framed by newlines, and discarding the
text previously between the tags. -/
theorem mergeContents_nav_replaces_interior (pre attrs mid post contents : List Char)
    (hmarker : occursSub contentsMarker
      (pre ++ str "<nav" ++ attrs ++ '>' :: (mid ++ str "</nav>" ++ post)) = false)
    (hpre : occursSub (str "<nav") (pre ++ str "<na") = false)
    (hgt : '>' ∉ attrs)
    (hhead : attrs.head?.all (fun c => !isWordChar c) = true)
    (hsplit : splitAtFirst (str "</nav>") (mid ++ str "</nav>" ++ post) = some (mid, post)) :
    mergeContents (pre ++ str "<nav" ++ attrs ++ '>' :: (mid ++ str "</nav>" ++ post))
        contents =
      pre ++ str "<nav" ++ attrs ++ '>' :: '\n' ::
        (contents ++ '\n' :: (str "</nav>" ++ post)) := by
  apply navReplace_core pre attrs mid post contents hmarker hpre hgt ?_ hsplit
  intro c hc
  rw [hc] at hhead
  simpa using hhead

/-- C3 witness: the amended statement on the template `x<nav>old</nav>y`. -/
theorem mergeContents_nav_replaces_interior_witness :
    (occursSub contentsMarker
        (str "x" ++ str "<nav" ++ [] ++ '>' :: (str "old" ++ str "</nav>" ++ str "y")) =
      false ∧
     occursSub (str "<nav") (str "x" ++ str "<na") = false ∧
     '>' ∉ ([] : List Char) ∧
     ([] : List Char).head?.all (fun c => !isWordChar c) = true ∧
     splitAtFirst (str "</nav>") (str "old" ++ str "</nav>" ++ str "y") =
       some (str "old", str "y")) ∧
    mergeContents (str "x" ++ str "<nav" ++ [] ++ '>' :: (str "old" ++ str "</nav>" ++ str "y"))
        (str "C") =
      str "x" ++ str "<nav" ++ [] ++ '>' :: '\n' ::
        (str "C" ++ '\n' :: (str "</nav>" ++ str "y")) :=
  ⟨⟨by decide, by decide, by decide, by decide, by decide⟩,
   mergeContents_nav_replaces_interior (str "x") [] (str "old") (str "y") (str "C")
     (by decide) (by decide) (by decide) (by decide) (by decide)⟩

/-- C4 amended: when a template is built from marker-free segments joined by
a marker, merging replaces every occurrence of the marker (not only the
first) and reproduces the segments unchanged around the insertions. -/
theorem merge_markers_replace_every_occurrence :
    (∀ (segs : List (List Char)) (posts : List Char), 2 ≤ segs.length →
      segs.all (fun seg => cleanSeg seg blogsMarker) = true →
      mergeFeed (List.intercalate blogsMarker segs) posts = List.intercalate posts segs) ∧
    (∀ (segs : List (List Char)) (contents : List Char), 2 ≤ segs.length →
      segs.all (fun seg => cleanSeg seg contentsMarker) = true →
      mergeContents (List.intercalate contentsMarker segs) contents =
        List.intercalate contents segs) :=
  ⟨fun segs posts hl ha => markers_core.1 segs posts hl (List.all_eq_true.mp ha),
   fun segs contents hl ha => markers_core.2 segs contents hl (List.all_eq_true.mp ha)⟩

/-- C4 witness: both insertion rules on three segments. -/
theorem merge_markers_replace_every_occurrence_witness :
    (2 ≤ ([str "A", str "B", str "C"] : List (List Char)).length ∧
     ([str "A", str "B", str "C"] : List (List Char)).all
       (fun seg => cleanSeg seg blogsMarker) = true ∧
     ([str "A", str "B", str "C"] : List (List Char)).all
       (fun seg => cleanSeg seg contentsMarker) = true) ∧
    mergeFeed (List.intercalate blogsMarker [str "A", str "B", str "C"]) (str "P") =
      List.intercalate (str "P") [str "A", str "B", str "C"] ∧
    mergeContents (List.intercalate contentsMarker [str "A", str "B", str "C"]) (str "Q") =
      List.intercalate (str "Q") [str "A", str "B", str "C"] :=
  ⟨⟨by decide, by decide, by decide⟩,
   merge_markers_replace_every_occurrence.1 _ _ (by decide) (by decide),
   merge_markers_replace_every_occurrence.2 _ _ (by decide) (by decide)⟩

/-- C6 amended: on texts with no line made of hashes followed only by
whitespace, the extractor returns the stripped text of the first line
matching the level-1 pattern, else the first line matching the level-2
pattern, else the fallback. -/
theorem extract_title_first_heading_line (md fb : List Char)
    (hcond : (linesOf md).all
      (fun l => !hashWsLine (str "#") l && !hashWsLine (str "##") l) = true) :
    extract_title md fb =
      match (linesOf md).findSome? (lineTitle (str "#")) with
      | some g => stripWS g
      | none =>
        match (linesOf md).findSome? (lineTitle (str "##")) with
        | some g => stripWS g
        | none => fb := by
  apply titleLines_core
  intro l hl
  have h2 := List.all_eq_true.mp hcond l hl
  simp only [Bool.and_eq_true, Bool.not_eq_true'] at h2
  exact h2

/-- C6 witness: a level-2 line appears first, but the level-1 line wins. -/
theorem extract_title_first_heading_line_witness :
    ((linesOf (str "## B\n# A\nx")).all
      (fun l => !hashWsLine (str "#") l && !hashWsLine (str "##") l) = true) ∧
    extract_title (str "## B\n# A\nx") (str "f") =
      (match (linesOf (str "## B\n# A\nx")).findSome? (lineTitle (str "#")) with
       | some g => stripWS g
       | none =>
         match (linesOf (str "## B\n# A\nx")).findSome? (lineTitle (str "##")) with
         | some g => stripWS g
         | none => str "f") :=
  ⟨by decide, extract_title_first_heading_line (str "## B\n# A\nx") (str "f") (by decide)⟩

/-- C7: a well-delimited fenced code block is replaced by a pre/code
container holding the HTML-escaped content, with a `language-` class
exactly when a tag is present, the surrounding text untouched; and the
end-to-end example compiles to the container with no paragraph wrapper. -/
theorem codeFence_block_replaced :
    (∀ (a tag cde b : List Char), '`' ∉ a → '`' ∉ b → tag.all isWordChar = true →
      splitAtFirst (str "\n```") (cde ++ str "\n```" ++ b) = some (cde, b) →
      codeFenceF ((a ++ str "```" ++ tag ++ '\n' :: (cde ++ str "\n```" ++ b)).length + 1)
          (a ++ str "```" ++ tag ++ '\n' :: (cde ++ str "\n```" ++ b)) =
        a ++ (if tag.isEmpty then str "<pre><code>" ++ htmlEscape cde ++ str "</code></pre>"
              else str "<pre><code class=\x27language-" ++ htmlEscape tag ++ str "\x27>" ++
                htmlEscape cde ++ str "</code></pre>") ++ b) ∧
    compile_markdown (str "```python\nprint(1)\n```") =
      str "<pre><code class=\x27language-python\x27>print(1)</code></pre>" :=
  ⟨fun a tag cde b ha hb ht hsp =>
    codeFence_core.1 a tag cde b ha hb (List.all_eq_true.mp ht) hsp,
   codeFence_core.2⟩

/-- C7 witness: a tagged fence between two backtick-free spans. -/
theorem codeFence_block_replaced_witness :
    ('`' ∉ str "A\n" ∧ '`' ∉ str "\nB" ∧ (str "py").all isWordChar = true ∧
     splitAtFirst (str "\n```") (str "z(1)" ++ str "\n```" ++ str "\nB") =
       some (str "z(1)", str "\nB")) ∧
    codeFenceF ((str "A\n" ++ str "```" ++ str "py" ++ '\n' ::
        (str "z(1)" ++ str "\n```" ++ str "\nB")).length + 1)
        (str "A\n" ++ str "```" ++ str "py" ++ '\n' ::
          (str "z(1)" ++ str "\n```" ++ str "\nB")) =
      str "A\n" ++ (if (str "py").isEmpty then
          str "<pre><code>" ++ htmlEscape (str "z(1)") ++ str "</code></pre>"
        else str "<pre><code class=\x27language-" ++ htmlEscape (str "py") ++ str "\x27>" ++
          htmlEscape (str "z(1)") ++ str "</code></pre>") ++ str "\nB" :=
  ⟨⟨by decide, by decide, by decide, by decide⟩,
   codeFence_block_replaced.1 (str "A\n") (str "py") (str "z(1)") (str "\nB")
     (by decide) (by decide) (by decide) (by decide)⟩

/-- C9: when the blogs directory or the template file is missing, the run
ends with exit code 1 and a diagnostic, and no output document is written;
both checks happen before the single write. -/
theorem mainModel_fatal_before_write (inp : RunInput)
    (h : inp.blogsDirExists = false ∨ inp.templateExists = false) :
    (mainModel inp).writtenOutput = none ∧ (mainModel inp).exitCode = 1 ∧
      (mainModel inp).diagnostic ≠ none :=
  mainModel_fatal_core inp h

/-- C9 witness: a run with a missing blogs directory. -/
theorem mainModel_fatal_before_write_witness :
    ((false : Bool) = false ∨ (true : Bool) = false) ∧
    ((mainModel ⟨false, true, [], str "T"⟩).writtenOutput = none ∧
     (mainModel ⟨false, true, [], str "T"⟩).exitCode = 1 ∧
     (mainModel ⟨false, true, [], str "T"⟩).diagnostic ≠ none) :=
  ⟨Or.inl rfl, mainModel_fatal_before_write ⟨false, true, [], str "T"⟩ (Or.inl rfl)⟩

/-- C10: the compiler converts a hash line with no whitespace after the
hash into a heading, while the extractor requires whitespace, so texts
whose hash lines all lack that whitespace fall back to the default title
even though the compiled body contains a heading element. -/
theorem heading_title_whitespace_disagreement :
    (∀ (md fb : List Char), (linesOf md).all hashNoWsLine = true →
      extract_title md fb = fb) ∧
    compile_markdown (str "#X") = str "<h2>X</h2>" ∧
    extract_title (str "#X") (str "fallback") = str "fallback" :=
  ⟨fun md fb h => titleFallback_core.1 md fb (List.all_eq_true.mp h),
   titleFallback_core.2.1, titleFallback_core.2.2⟩

/-- C10 witness: a two-line text whose only hash line is `#Y`. -/
theorem heading_title_whitespace_disagreement_witness :
    ((linesOf (str "#Y\ntext")).all hashNoWsLine = true) ∧
    extract_title (str "#Y\ntext") (str "g") = str "g" :=
  ⟨by decide, heading_title_whitespace_disagreement.1 (str "#Y\ntext") (str "g") (by decide)⟩
